import Mathlib

/-!
# Delta binary-packed codec and block reader of `tempo` (vparquet)

Shallow embedding of

* `vendor/github.com/segmentio/parquet-go/encoding/delta/binary_packed_amd64.go`
  (`encodeInt32AVX2`, `encodeInt64AVX2`, `miniBlockPackInt32AVX2`,
  `miniBlockPackInt64AVX2`),
* `vendor/github.com/segmentio/parquet-go/encoding/delta/delta.go`
  (`int32Buffer.decode`),
* `tempodb/encoding/vparquet/block_iterator.go` (`blockIterator.Next`),
* the data of `tempodb/encoding/vparquet/block_search_test.go` and
  `block_findtracebyid_test.go`.

Bytes are natural numbers below 256, byte slices are lists.  Machine integers
are mathematical integers together with explicit wrap-around conversions
(`toSigned`, `toUnsigned`).  A Go slice that is grown with `resize` and then
re-sliced to the bytes actually written is a list that is appended to.
-/

set_option autoImplicit false

namespace Delta

/-! ## Machine integers -/

/-- Go conversion to the signed integer type of width `b` (two's complement
wrap-around): the representative of `x` modulo `2^b` in `[-2^(b-1), 2^(b-1))`. -/
def toSigned (b : Nat) (x : Int) : Int :=
  (x + ((2 ^ (b - 1) : Nat) : Int)) % ((2 ^ b : Nat) : Int) - ((2 ^ (b - 1) : Nat) : Int)

/-- Go conversion to the unsigned integer type of width `b`: the
representative of `x` modulo `2^b` in `[0, 2^b)`. -/
def toUnsigned (b : Nat) (x : Int) : Nat :=
  (x % ((2 ^ b : Nat) : Int)).toNat

/-- A value of the signed integer type of width `b`. -/
def InRange (b : Nat) (x : Int) : Prop :=
  -((2 ^ (b - 1) : Nat) : Int) ≤ x ∧ x < ((2 ^ (b - 1) : Nat) : Int)

instance (b : Nat) (x : Int) : Decidable (InRange b x) := by
  unfold InRange; infer_instance

/-- Go `bits.Len`: the number of bits needed to write `n`, zero for `n = 0`.
The first argument bounds the number of halvings; 64 covers every `uint64`. -/
def bitsLenAux : Nat → Nat → Nat
  | 0, _ => 0
  | fuel + 1, n => if n = 0 then 0 else bitsLenAux fuel (n / 2) + 1

/-- Go `bits.Len32` / `bits.Len64` on a value below `2^64`. -/
def bitsLen (n : Nat) : Nat := bitsLenAux 64 n

/-! ## Constants of the binary-packed layout -/

/-- Modelled from the spec: the constant `blockSize` of `binary_packed.go`
(source not embedded here); the spec fixes blocks of 128 values. -/
def blockSize : Nat := 128

/-- Modelled from the spec: the constant `numMiniBlocks` of `binary_packed.go`
(source not embedded here); the spec fixes 4 mini-blocks per block. -/
def numMiniBlocks : Nat := 4

/-- Modelled from the spec: the constant `miniBlockSize` of `binary_packed.go`
(source not embedded here); 4 mini-blocks of 32 values each. -/
def miniBlockSize : Nat := blockSize / numMiniBlocks

/-! ## Variable-length integers (Go `encoding/binary`) -/

/-- Go `binary.PutUvarint` loop: while `x >= 0x80` emit `byte(x) | 0x80` and
shift right by 7; then emit `byte(x)`.  The first argument bounds the number
of continuation bytes (9 for a `uint64`). -/
def putUvarintAux : Nat → Nat → List Nat
  | 0, x => [x % 256]
  | fuel + 1, x =>
    if x < 128 then [x] else (x % 128 + 128) :: putUvarintAux fuel (x / 128)

/-- Go `binary.PutUvarint(buf, uint64(x))`: the bytes written. -/
def putUvarint (x : Nat) : List Nat := putUvarintAux 9 (x % 2 ^ 64)

/-- Go `binary.PutVarint(buf, int64(x))`: zig-zag, then `PutUvarint`. -/
def putVarint (x : Int) : List Nat :=
  let v := toSigned 64 x
  putUvarint (if v < 0 then (-(2 * v) - 1).toNat else (2 * v).toNat)

/-- Go `binary.Uvarint` loop, at most the given number of bytes. -/
def getUvarintAux : Nat → List Nat → Option (Nat × List Nat)
  | 0, _ => none
  | _ + 1, [] => none
  | fuel + 1, c :: cs =>
    if c < 128 then some (c, cs)
    else
      match getUvarintAux fuel cs with
      | none => none
      | some (x, rest) => some (c % 128 + 128 * x, rest)

/-- Go `binary.Uvarint`: the value and the remaining bytes; `none` when the
input ends early or the value overflows 64 bits. -/
def getUvarint (src : List Nat) : Option (Nat × List Nat) :=
  match getUvarintAux 10 src with
  | none => none
  | some (x, rest) => if x < 2 ^ 64 then some (x, rest) else none

/-- Go `binary.Varint`: `Uvarint`, then undo the zig-zag. -/
def getVarint (src : List Nat) : Option (Int × List Nat) :=
  match getUvarint src with
  | none => none
  | some (ux, rest) =>
    some (if ux % 2 = 0 then ((ux / 2 : Nat) : Int) else -((ux / 2 : Nat) : Int) - 1, rest)

/-! ## Header and block header -/

/-- Modelled from the spec: `encodeBinaryPackedHeader` of `binary_packed.go`
(source not embedded here).  The header holds block size, mini-block count,
total value count and the first value stored verbatim; the layout is that of
Parquet DELTA_BINARY_PACKED: three unsigned varints and one zig-zag varint. -/
def encodeBinaryPackedHeader (blockSize numMiniBlocks totalValues : Nat)
    (firstValue : Int) : List Nat :=
  putUvarint blockSize ++ putUvarint numMiniBlocks ++ putUvarint totalValues ++
    putVarint firstValue

/-- Modelled from the spec: `encodeBlockHeader` of `binary_packed.go`
(source not embedded here).  A block header records the minimum delta
(zig-zag varint) followed by one bit-width byte per mini-block. -/
def encodeBlockHeader (minDelta : Int) (bitWidths : List Nat) : List Nat :=
  putVarint minDelta ++ bitWidths

/-! ## Block kernels

The kernels `block*AVX2` are assembly routines; only their Go declarations
are given.  Each takes the whole fixed-size block
`*[blockSize]intN` and no length. -/

/-- Modelled from the spec: `blockDeltaIntNAVX2(block, lastValue)` (assembly,
declaration only).  Replaces every entry by its difference to the previous
entry, the first one by its difference to `lastValue`, with wrap-around at
width `b`, and returns the last original entry. -/
def blockDelta (b : Nat) : List Int → Int → List Int × Int
  | [], lastValue => ([], lastValue)
  | v :: vs, lastValue =>
    let r := blockDelta b vs v
    (toSigned b (v - lastValue) :: r.1, r.2)

/-- Modelled from the spec: `blockMinIntNAVX2(block)` (assembly, declaration
only): the minimum entry of the block. -/
def blockMin : List Int → Int
  | [] => 0
  | v :: vs => vs.foldl (fun m x => if x < m then x else m) v

/-- Modelled from the spec: `blockSubIntNAVX2(block, value)` (assembly,
declaration only): subtracts `value` from every entry, with wrap-around. -/
def blockSub (b : Nat) (block : List Int) (value : Int) : List Int :=
  block.map (fun v => toSigned b (v - value))

/-- Modelled from the spec: `blockClearIntN(block, blockLength)` of
`binary_packed.go` (source not embedded here): zeroes the entries from
position `blockLength` on. -/
def blockClear (block : List Int) (blockLength : Nat) : List Int :=
  block.take blockLength ++ List.replicate (block.length - blockLength) 0

/-- The largest `bits.Len` of the unsigned entries of one mini-block. -/
def miniBlockBitWidth (b : Nat) (miniBlock : List Int) : Nat :=
  miniBlock.foldl (fun w v => max w (bitsLen (toUnsigned b v))) 0

/-- Modelled from the spec: `blockBitWidthsIntNAVX2(bitWidths, block)`
(assembly, declaration only): for each of the `numMiniBlocks` mini-blocks the
minimal bit width that represents its largest entry. -/
def blockBitWidths (b : Nat) (block : List Int) : List Nat :=
  (List.range numMiniBlocks).map
    (fun i => miniBlockBitWidth b ((block.drop (i * miniBlockSize)).take miniBlockSize))

/-! ## Mini-block packing -/

/-- The values of a mini-block laid out least-significant-bit first, the
low `w` bits of each, read as one little-endian number. -/
def packBits (w : Nat) : List Nat → Nat
  | [] => 0
  | v :: vs => v % 2 ^ w + 2 ^ w * packBits w vs

/-- The values of a mini-block, each shifted to its bit offset `i * w` and
ORed together, read as one little-endian number.  Nothing is masked: a value
wider than `w` bits spills into the bits of the values after it. -/
def orBits (w : Nat) : List Nat → Nat
  | [] => 0
  | v :: vs => v ||| 2 ^ w * orBits w vs

/-- The `n` low bytes of `x`, least significant first. -/
def bytesLE : Nat → Nat → List Nat
  | 0, _ => []
  | n + 1, x => x % 256 :: bytesLE n (x / 256)

/-- Modelled from the spec: `miniBlockPackIntNDefault(dst, src, bitWidth)`
(assembly, declaration only): packs the 32 values of the mini-block at
`bitWidth` bits each.  The spec does not say what becomes of bits above the
width, and the routine receives no mask: every value is shifted to its bit
offset and ORed into the zeroed destination as it is, so the layout is the
packed one exactly when the values fit in `bitWidth` bits.  The bytes that
count are the first `32 * bitWidth / 8`. -/
def miniBlockPackDefault (b : Nat) (src : List Int) (bitWidth : Nat) : List Nat :=
  bytesLE (miniBlockSize * bitWidth / 8) (orBits bitWidth (src.map (toUnsigned b)))

/-- See `miniBlockPackDefault`, 32-bit values. -/
def miniBlockPackInt32Default (src : List Int) (bitWidth : Nat) : List Nat :=
  miniBlockPackDefault 32 src bitWidth

/-- See `miniBlockPackDefault`, 64-bit values. -/
def miniBlockPackInt64Default (src : List Int) (bitWidth : Nat) : List Nat :=
  miniBlockPackDefault 64 src bitWidth

/-- One output byte per 8 values: bit `j` of the byte is the low bit of the
`j`-th value. -/
def pack1bit : List Nat → List Nat
  | a0 :: a1 :: a2 :: a3 :: a4 :: a5 :: a6 :: a7 :: rest =>
    (a0 % 2 + 2 * (a1 % 2) + 4 * (a2 % 2) + 8 * (a3 % 2) + 16 * (a4 % 2) + 32 * (a5 % 2)
      + 64 * (a6 % 2) + 128 * (a7 % 2)) :: pack1bit rest
  | _ => []

/-- One output byte per 4 values: bits `2j, 2j+1` of the byte are the two
low bits of the `j`-th value. -/
def pack2bits : List Nat → List Nat
  | a0 :: a1 :: a2 :: a3 :: rest =>
    (a0 % 4 + 4 * (a1 % 4) + 16 * (a2 % 4) + 64 * (a3 % 4)) :: pack2bits rest
  | _ => []

/-- The bits `0 .. w-1` of `v`, least significant first. -/
def bitsOf : Nat → Nat → List Bool
  | 0, _ => []
  | w + 1, v => decide (v % 2 = 1) :: bitsOf w (v / 2)

/-- The number whose binary digits, least significant first, are given. -/
def bitsToNat : List Bool → Nat
  | [] => 0
  | c :: cs => (if c then 1 else 0) + 2 * bitsToNat cs

/-- Modelled from the spec: `miniBlockPackInt32x1bitAVX2` (assembly,
declaration only): the dedicated packing path of bit width 1. -/
def miniBlockPackInt32x1bitAVX2 (src : List Int) : List Nat :=
  pack1bit (src.map (toUnsigned 32))

/-- Modelled from the spec: `miniBlockPackInt32x2bitsAVX2` (assembly,
declaration only): the dedicated packing path of bit width 2. -/
def miniBlockPackInt32x2bitsAVX2 (src : List Int) : List Nat :=
  pack2bits (src.map (toUnsigned 32))

/-- Modelled from the spec: `miniBlockPackInt32x3to16bitsAVX2` (assembly,
declaration only): the packing path of the bit widths 3 to 16, written as
a stream of bits that is cut into bytes. -/
def miniBlockPackInt32x3to16bitsAVX2 (src : List Int) (bitWidth : Nat) : List Nat :=
  bytesLE (miniBlockSize * bitWidth / 8)
    (bitsToNat ((src.map (toUnsigned 32)).flatMap (bitsOf bitWidth)))

/-- Modelled from the spec: `miniBlockPackInt32x32bitsAVX2` (assembly,
declaration only): the dedicated packing path of the full width; every
value is stored as its 4 little-endian bytes. -/
def miniBlockPackInt32x32bitsAVX2 (src : List Int) : List Nat :=
  (src.map (toUnsigned 32)).flatMap (bytesLE 4)

/-- Modelled from the spec: `miniBlockPackInt64x1bitAVX2` (assembly,
declaration only): the dedicated packing path of bit width 1. -/
def miniBlockPackInt64x1bitAVX2 (src : List Int) : List Nat :=
  pack1bit (src.map (toUnsigned 64))

/-- Modelled from the spec: `miniBlockPackInt64x2bitsAVX2` (assembly,
declaration only): the dedicated packing path of bit width 2. -/
def miniBlockPackInt64x2bitsAVX2 (src : List Int) : List Nat :=
  pack2bits (src.map (toUnsigned 64))

/-- Modelled from the spec: `miniBlockPackInt64x64bitsAVX2` (assembly,
declaration only): the dedicated packing path of the full width; every
value is stored as its 8 little-endian bytes. -/
def miniBlockPackInt64x64bitsAVX2 (src : List Int) : List Nat :=
  (src.map (toUnsigned 64)).flatMap (bytesLE 8)

/-- `miniBlockPackInt32AVX2` of `binary_packed_amd64.go`: the `switch` on
the bit width, cases in source order. -/
def miniBlockPackInt32AVX2 (src : List Int) (bitWidth : Nat) : List Nat :=
  if bitWidth = 1 then miniBlockPackInt32x1bitAVX2 src
  else if bitWidth = 2 then miniBlockPackInt32x2bitsAVX2 src
  else if bitWidth = 32 then miniBlockPackInt32x32bitsAVX2 src
  else if bitWidth ≤ 16 then miniBlockPackInt32x3to16bitsAVX2 src bitWidth
  else miniBlockPackInt32Default src bitWidth

/-- `miniBlockPackInt64AVX2` of `binary_packed_amd64.go`: the `switch` on
the bit width, cases in source order. -/
def miniBlockPackInt64AVX2 (src : List Int) (bitWidth : Nat) : List Nat :=
  if bitWidth = 1 then miniBlockPackInt64x1bitAVX2 src
  else if bitWidth = 2 then miniBlockPackInt64x2bitsAVX2 src
  else if bitWidth = 64 then miniBlockPackInt64x64bitsAVX2 src
  else miniBlockPackInt64Default src bitWidth

/-! ## The encoders -/

/-- Go `block := [blockSize]intN{}; blockLength := copy(block[:], src[i:])`
where `rest` is `src[i:]`: a zero-initialised block overwritten by the first
`min blockSize (len rest)` values. -/
def loadBlock (rest : List Int) : List Int × Nat :=
  let head := rest.take blockSize
  (head ++ List.replicate (blockSize - head.length) 0, head.length)

/-- The inner loop `for i, bitWidth := range bitWidths` of the encoders: a
mini-block of bit width 0 writes nothing; otherwise the packer is called on
`block[i*miniBlockSize:]` and `n` advances by `miniBlockSize*bitWidth/8`. -/
def packMiniBlocks (pack : List Int → Nat → List Nat) (block : List Int) :
    Nat → List Nat → List Nat → List Nat
  | _, [], dst => dst
  | i, bitWidth :: rest, dst =>
    packMiniBlocks pack block (i + 1) rest
      (if bitWidth ≠ 0 then
        dst ++ (pack ((block.drop (i * miniBlockSize)).take miniBlockSize) bitWidth).take
          (miniBlockSize * bitWidth / 8)
      else dst)

/-- The minimum delta and the block after delta, subtraction and clearing,
as computed by one iteration of the encoder loop (lines 79 to 85 and 166 to
172), together with the `lastValue` carried to the next iteration. -/
def blockPrepare (b : Nat) (rest : List Int) (lastValue : Int) : Int × List Int × Int :=
  let (block, blockLength) := loadBlock rest
  let (block, lastValue) := blockDelta b block lastValue
  let minDelta := blockMin block
  let block := blockSub b block minDelta
  let block := blockClear block blockLength
  (minDelta, block, lastValue)

/-- The loop `for i := 1; i < len(src); i += blockSize` of the encoders,
generic in the integer width `b` and the mini-block packer; `rest` is
`src[i:]`.  The first argument bounds the number of iterations. -/
def encodeBlocks (b : Nat) (pack : List Int → Nat → List Nat) :
    Nat → List Nat → List Int → Int → List Nat
  | 0, dst, _, _ => dst
  | fuel + 1, dst, rest, lastValue =>
    if rest = [] then dst
    else
      let (minDelta, block, lastValue) := blockPrepare b rest lastValue
      let bitWidths := blockBitWidths b block
      let dst := dst ++ encodeBlockHeader minDelta bitWidths
      let dst := packMiniBlocks pack block 0 bitWidths dst
      encodeBlocks b pack fuel dst (rest.drop blockSize) lastValue

/-- The body shared by `encodeInt32AVX2` and `encodeInt64AVX2`, generic in
the integer width and the mini-block packer. -/
def encodeWith (b : Nat) (pack : List Int → Nat → List Nat) (dst : List Nat)
    (src : List Int) : List Nat :=
  let totalValues := src.length
  let firstValue := src.headD 0
  let dst := dst ++ encodeBinaryPackedHeader blockSize numMiniBlocks totalValues firstValue
  if totalValues < 2 then dst
  else encodeBlocks b pack src.length dst (src.drop 1) firstValue

/-- `encodeInt32AVX2` of `binary_packed_amd64.go`. -/
def encodeInt32AVX2 (dst : List Nat) (src : List Int) : List Nat :=
  encodeWith 32 miniBlockPackInt32AVX2 dst src

/-- `encodeInt64AVX2` of `binary_packed_amd64.go`. -/
def encodeInt64AVX2 (dst : List Nat) (src : List Int) : List Nat :=
  encodeWith 64 miniBlockPackInt64AVX2 dst src

/-- The minimum delta and the bit widths that each iteration of the encoder
loop hands to `encodeBlockHeader`, in block order. -/
def blockHeaders (b : Nat) : Nat → List Int → Int → List (Int × List Nat)
  | 0, _, _ => []
  | fuel + 1, rest, lastValue =>
    if rest = [] then []
    else
      let (minDelta, block, lastValue) := blockPrepare b rest lastValue
      (minDelta, blockBitWidths b block) :: blockHeaders b fuel (rest.drop blockSize) lastValue

/-! ## Decoding -/

/-- The number whose little-endian bytes are given. -/
def unbytesLE : List Nat → Nat
  | [] => 0
  | c :: cs => c + 256 * unbytesLE cs

/-- The first `n` values of `w` bits each of a packed little-endian number. -/
def unpackBits (w : Nat) : Nat → Nat → List Nat
  | 0, _ => []
  | n + 1, x => x % 2 ^ w :: unpackBits w n (x / 2 ^ w)

/-- The decoder's accumulation `lastValue += minDelta + delta; observe(lastValue)`
over the deltas of one mini-block, in `int64` arithmetic. -/
def addDeltas (minDelta : Int) : Int → List Nat → List Int × Int
  | lastValue, [] => ([], lastValue)
  | lastValue, d :: ds =>
    let v := toSigned 64 (lastValue + minDelta + (d : Int))
    let r := addDeltas minDelta v ds
    (v :: r.1, r.2)

/-- Modelled from the spec: `decodeBinaryPackedHeader` of `binary_packed.go`
(source not embedded here): reads back block size, mini-block count, total
value count and first value. -/
def decodeBinaryPackedHeader (src : List Nat) : Option (Nat × Nat × Nat × Int × List Nat) :=
  match getUvarint src with
  | none => none
  | some (blockSize, src) =>
    match getUvarint src with
    | none => none
    | some (numMiniBlocks, src) =>
      match getUvarint src with
      | none => none
      | some (totalValues, src) =>
        match getVarint src with
        | none => none
        | some (firstValue, src) => some (blockSize, numMiniBlocks, totalValues, firstValue, src)

/-- Modelled from the spec: the mini-blocks of one block are read in order;
each holds `miniBlockSize` values of its recorded bit width (no bytes at bit
width 0), and only the values within the remaining total value count are
observed, the padding beyond it is discarded.  Returns the observed values,
the remaining count, the last value and the remaining bytes; `none` when the
input ends early. -/
def decodeMiniBlocks (miniBlockSize : Nat) (minDelta : Int) :
    List Nat → Nat → Int → List Nat → Option (List Int × Nat × Int × List Nat)
  | [], totalValues, lastValue, src => some ([], totalValues, lastValue, src)
  | bitWidth :: bitWidths, totalValues, lastValue, src =>
    let size := (miniBlockSize * bitWidth + 7) / 8
    if src.length < size then none
    else
      let n := min miniBlockSize totalValues
      let r := addDeltas minDelta lastValue (unpackBits bitWidth n (unbytesLE (src.take size)))
      match decodeMiniBlocks miniBlockSize minDelta bitWidths (totalValues - n) r.2
          (src.drop size) with
      | none => none
      | some (values, totalValues, lastValue, src) =>
        some (r.1 ++ values, totalValues, lastValue, src)

/-- Modelled from the spec: the decoder replays the blocks in order until
the recorded total value count is reached: block header (minimum delta, bit
widths), then the mini-blocks.  The first argument bounds the number of
blocks. -/
def decodeBlocks (blockSize numMiniBlocks : Nat) :
    Nat → Nat → Int → List Nat → Option (List Int × List Nat)
  | 0, totalValues, _, src => if totalValues = 0 then some ([], src) else none
  | fuel + 1, totalValues, lastValue, src =>
    if totalValues = 0 then some ([], src)
    else
      match getVarint src with
      | none => none
      | some (minDelta, src) =>
        if src.length < numMiniBlocks then none
        else
          match decodeMiniBlocks (blockSize / numMiniBlocks) minDelta (src.take numMiniBlocks)
              totalValues lastValue (src.drop numMiniBlocks) with
          | none => none
          | some (values, totalValues, lastValue, src) =>
            match decodeBlocks blockSize numMiniBlocks fuel totalValues lastValue src with
            | none => none
            | some (more, src) => some (values ++ more, src)

/-- Modelled from the spec: `BinaryPackedEncoding.decode(src, observe)` of
`binary_packed.go` (source not embedded here).  Returns the values handed to
`observe`, in order, and the bytes that remain; `none` stands for a decoding
error.  Every block observes at least one value when the header is valid,
so a number of blocks equal to the total value count always suffices. -/
def BinaryPackedEncoding.decode (src : List Nat) : Option (List Int × List Nat) :=
  match decodeBinaryPackedHeader src with
  | none => none
  | some (blockSize, numMiniBlocks, totalValues, firstValue, src) =>
    if totalValues = 0 then some ([], src)
    else if numMiniBlocks = 0 ∨ blockSize / numMiniBlocks = 0 then none
    else
      match decodeBlocks blockSize numMiniBlocks (totalValues - 1) (totalValues - 1)
          firstValue src with
      | none => none
      | some (values, src) => some (firstValue :: values, src)

/-- `int32Buffer.decode` of `delta.go`: every observed value is appended to
`buf.values` after conversion to `int32`.  Returns the new `buf.values` and
the remaining bytes. -/
def int32Buffer.decode (values : List Int) (src : List Nat) : Option (List Int × List Nat) :=
  match BinaryPackedEncoding.decode src with
  | none => none
  | some (observed, rest) => some (values ++ observed.map (toSigned 32), rest)

/-! ## Views of the encoders used in the statements -/

/-- Modelled from the spec: tail padding, "pad with the last real value":
the values of a block completed to `blockSize` entries with copies of its
last value (of the carried last value when the block is empty). -/
def padWithLast (vals : List Int) (lastValue : Int) : List Int :=
  vals ++ List.replicate (blockSize - vals.length) (vals.getLastD lastValue)

/-- Modelled from the spec: a block divided into `numMiniBlocks` mini-blocks
of `miniBlockSize` values each. -/
def miniBlocksOf (block : List Int) : List (List Int) :=
  (List.range numMiniBlocks).map
    (fun i => (block.drop (i * miniBlockSize)).take miniBlockSize)

/-- Modelled from the spec: one block of the scalar reference encoder, in
the words of the algorithm: the successive deltas of the padded block, the
first one relative to the carried last value; the minimum delta within the
block; that minimum subtracted from every delta; for each mini-block the
minimal bit width of its largest adjusted value; the block header, then the
adjusted values packed at that width, a mini-block of width 0 being omitted
from the packed stream. -/
def scalarBlock (b : Nat) (vals : List Int) (lastValue : Int) : List Nat :=
  let deltas := (blockDelta b (padWithLast vals lastValue) lastValue).1
  let minDelta := blockMin deltas
  let adjusted := deltas.map (fun d => toSigned b (d - minDelta))
  let miniBlocks := miniBlocksOf adjusted
  encodeBlockHeader minDelta (miniBlocks.map (miniBlockBitWidth b)) ++
    miniBlocks.flatMap (fun miniBlock =>
      if miniBlockBitWidth b miniBlock = 0 then []
      else miniBlockPackDefault b miniBlock (miniBlockBitWidth b miniBlock))

/-- Modelled from the spec: the blocks of the scalar reference encoder: the
values after the first are partitioned into blocks of `blockSize`, encoded
in order, each carrying its last value to the next.  The first argument
bounds the number of blocks. -/
def scalarBlocks (b : Nat) : Nat → List Int → Int → List Nat
  | 0, _, _ => []
  | fuel + 1, rest, lastValue =>
    if rest = [] then []
    else
      scalarBlock b (rest.take blockSize) lastValue ++
        scalarBlocks b fuel (rest.drop blockSize) ((rest.take blockSize).getLastD lastValue)

/-- Modelled from the spec: the scalar reference encoder of width `b`: the
header (block size, mini-block count, total value count, first value), then
the blocks; zero or one value give the header only. -/
def encodeScalar (b : Nat) (dst : List Nat) (src : List Int) : List Nat :=
  dst ++ encodeBinaryPackedHeader blockSize numMiniBlocks src.length (src.headD 0) ++
    (if src.length < 2 then [] else scalarBlocks b src.length (src.drop 1) (src.headD 0))

/-- Modelled from the spec: the scalar reference encoder `encodeInt32Default`
of `binary_packed.go` (source not embedded here), the value of the variable
`encodeInt32` before `init` runs; it follows the algorithm of the
specification, tail padding with the last real value included. -/
def encodeInt32Default (dst : List Nat) (src : List Int) : List Nat :=
  encodeScalar 32 dst src

/-- Modelled from the spec: the scalar reference encoder `encodeInt64Default`
of `binary_packed.go` (source not embedded here); see `encodeInt32Default`. -/
def encodeInt64Default (dst : List Nat) (src : List Int) : List Nat :=
  encodeScalar 64 dst src

/-- The variable `encodeInt32` after `init` of `binary_packed_amd64.go`:
replaced by `encodeInt32AVX2` when `cpu.X86.HasAVX2`. -/
def encodeInt32 (hasAVX2 : Bool) (dst : List Nat) (src : List Int) : List Nat :=
  if hasAVX2 then encodeInt32AVX2 dst src else encodeInt32Default dst src

/-- The variable `encodeInt64` after `init` of `binary_packed_amd64.go`:
replaced by `encodeInt64AVX2` when `cpu.X86.HasAVX2`. -/
def encodeInt64 (hasAVX2 : Bool) (dst : List Nat) (src : List Int) : List Nat :=
  if hasAVX2 then encodeInt64AVX2 dst src else encodeInt64Default dst src

/-- The (minimum delta, bit widths) pairs that the loop of `encodeInt32AVX2`
hands to `encodeBlockHeader`, one per block. -/
def blockHeadersInt32 (src : List Int) : List (Int × List Nat) :=
  if src.length < 2 then [] else blockHeaders 32 src.length (src.drop 1) (src.headD 0)

/-- The (minimum delta, bit widths) pairs that the loop of `encodeInt64AVX2`
hands to `encodeBlockHeader`, one per block. -/
def blockHeadersInt64 (src : List Int) : List (Int × List Nat) :=
  if src.length < 2 then [] else blockHeaders 64 src.length (src.drop 1) (src.headD 0)

/-- The bytes of one block: block header, then the packed mini-blocks. -/
def renderBlock (header : Int × List Nat) (packed : List (List Nat)) : List Nat :=
  encodeBlockHeader header.1 header.2 ++ packed.flatten

/-- The shape of one block: `numMiniBlocks` bit widths, and for each
mini-block `miniBlockSize * w / 8` packed bytes (none when `w = 0`). -/
def BlockShape (header : Int × List Nat) (packed : List (List Nat)) : Prop :=
  header.2.length = numMiniBlocks ∧
    List.Forall₂ (fun w bytes => bytes.length = miniBlockSize * w / 8) header.2 packed

/-- The real values covered by block `k` of the input `src`. -/
def blockValues (src : List Int) (k : Nat) : List Int :=
  (src.drop (1 + blockSize * k)).take blockSize

/-- The value preceding block `k`: the first value for `k = 0`, otherwise
the last value of the previous block. -/
def blockPrev (src : List Int) (k : Nat) : Int :=
  src.getD (blockSize * k) 0

/-- A short block that the choice of padding leaves unchanged: no delta of
its real values is negative, `0 - last value` is not negative, and a zero
delta occurs among the real values or the padding. -/
def PaddingNeutral (b : Nat) (vals : List Int) (prev : Int) : Prop :=
  (∀ d ∈ (blockDelta b vals prev).1, 0 ≤ d) ∧
    0 ≤ toSigned b (0 - vals.getLastD prev) ∧
    ((0 : Int) ∈ (blockDelta b vals prev).1 ∨ toSigned b (0 - vals.getLastD prev) = 0 ∨
      vals.length + 2 ≤ blockSize)

instance (b : Nat) (vals : List Int) (prev : Int) : Decidable (PaddingNeutral b vals prev) := by
  unfold PaddingNeutral; infer_instance

/-- The block header if the padding positions changed neither the minimum
delta nor the bit widths: the minimum ranges over the deltas of the real
values only, and the bit widths are those of the real deltas minus that
minimum, padding positions counting as zero. -/
def realBlockHeader (b : Nat) (vals : List Int) (prev : Int) : Int × List Nat :=
  let deltas := (blockDelta b vals prev).1
  let minDelta := blockMin deltas
  (minDelta, blockBitWidths b
    (deltas.map (fun d => toSigned b (d - minDelta)) ++
      List.replicate (blockSize - vals.length) 0))

/-- The block header with the padding positions of a short block holding
zeros: the minimum also ranges over the delta `0 - last real value` and the
zero deltas between padding positions; the bit widths are those of the real
deltas minus that minimum, padding positions counting as zero. -/
def zeroPaddedBlockHeader (b : Nat) (vals : List Int) (prev : Int) : Int × List Nat :=
  let deltas := (blockDelta b vals prev).1
  let pad :=
    if vals.length < blockSize then
      toSigned b (0 - vals.getLastD prev) :: List.replicate (blockSize - vals.length - 1) 0
    else []
  let minDelta := blockMin (deltas ++ pad)
  (minDelta, blockBitWidths b
    (deltas.map (fun d => toSigned b (d - minDelta)) ++
      List.replicate (blockSize - vals.length) 0))

end Delta

namespace VParquet

/-! ## Go errors -/

/-- Go `error` values as far as `blockIterator.Next` tells them apart: the
sentinel `io.EOF`, any other error, and `errors.Wrap(cause, message)`. -/
inductive GoError where
  | eof : GoError
  | other (text : String) : GoError
  | wrap (cause : GoError) (message : String) : GoError
  deriving DecidableEq, Repr

/-- Go `err.Error()`; a wrapped error prints `message: cause`. -/
def GoError.Error : GoError → String
  | .eof => "EOF"
  | .other text => text
  | .wrap cause message => message ++ ": " ++ cause.Error

/-! ## The rows of a block (fields as used by the tests) -/

/-- `Attribute` of the row schema: key and nullable string value. -/
structure Attribute where
  Key : String
  Value : Option String
  deriving DecidableEq, Repr

/-- `EventAttribute` of the row schema. -/
structure EventAttribute where
  Key : String
  Value : String
  deriving DecidableEq, Repr

/-- `Event` of the row schema. -/
structure Event where
  Attrs : List EventAttribute
  deriving DecidableEq, Repr

/-- `Span` of the row schema. -/
structure Span where
  ID : List Nat
  Name : String
  StatusCode : Int
  ParentSpanID : List Nat
  HttpMethod : Option String
  HttpUrl : Option String
  HttpStatusCode : Option Int
  Attrs : List Attribute
  Events : List Event
  deriving DecidableEq, Repr

/-- `ILS` of the row schema: the spans of one instrumentation library. -/
structure ILS where
  Spans : List Span
  deriving DecidableEq, Repr

/-- `Resource` of the row schema. -/
structure Resource where
  ServiceName : String
  Cluster : Option String
  Namespace : Option String
  Pod : Option String
  Container : Option String
  K8sClusterName : Option String
  K8sNamespaceName : Option String
  K8sPodName : Option String
  K8sContainerName : Option String
  Attrs : List Attribute
  deriving DecidableEq, Repr

/-- `ResourceSpans` of the row schema. -/
structure ResourceSpans where
  Resource : VParquet.Resource
  InstrumentationLibrarySpans : List ILS
  deriving DecidableEq, Repr

/-- `Trace` of the row schema: one row of a block. -/
structure Trace where
  TraceID : String
  StartTimeUnixNano : Nat
  DurationNanos : Nat
  RootServiceName : String
  RootSpanName : String
  ResourceSpans : List VParquet.ResourceSpans
  deriving DecidableEq, Repr

/-- Go `&Trace{}`: the zero value. -/
def Trace.zero : Trace :=
  { TraceID := "", StartTimeUnixNano := 0, DurationNanos := 0, RootServiceName := "",
    RootSpanName := "", ResourceSpans := [] }

/-! ## `block_iterator.go` -/

/-- What one call of `Read` on the `parquet.Reader` finds: a row, or a
failure with its error. -/
inductive ReadOutcome where
  | row (t : Trace) : ReadOutcome
  | fail (err : GoError) : ReadOutcome
  deriving DecidableEq, Repr

/-- The state of the `parquet.Reader` (library):
the outcomes of the coming calls of `Read`; once they are used up the reader
is at the end of the file. -/
abbrev Reader := List ReadOutcome

/-- `r.Read(t)`: the error (`none` for `nil`), the row now in `t`, and the
reader afterwards.  At the end of the file `Read` returns `io.EOF`. -/
def Reader.Read (r : Reader) (t : Trace) : Option GoError × Trace × Reader :=
  match r with
  | [] => (some GoError.eof, t, [])
  | ReadOutcome.row row :: rest => (none, row, rest)
  | ReadOutcome.fail err :: rest => (some err, t, rest)

/-- `blockIterator` of `block_iterator.go`. -/
structure blockIterator where
  blockID : String
  r : Reader
  deriving DecidableEq, Repr

/-- `blockIterator.Next` of `block_iterator.go`: the returned pair
`(*Trace, error)` (`none` for `nil`) and the iterator afterwards. -/
def blockIterator.Next (i : blockIterator) : (Option Trace × Option GoError) × blockIterator :=
  let t := Trace.zero
  match i.r.Read t with
  | (none, t, r) => ((some t, none), { i with r := r })
  | (some GoError.eof, _, r) => ((none, none), { i with r := r })
  | (some err, _, r) =>
    ((none, some (GoError.wrap err ("error iterating through block " ++ i.blockID))),
      { i with r := r })

/-- A sealed block as `backendBlock.Iterator` sees it: the identifier and
object count of its meta, and what `parquet.OpenFile` yields on its data
file: an error, or a reader positioned at the first row. -/
structure backendBlock where
  BlockID : String
  TotalObjects : Nat
  openFile : Except GoError Reader

/-- A sealed block whose data file opens and holds exactly the given rows,
each of which reads without error. -/
def sealedBlock (blockID : String) (rows : List Trace) : backendBlock :=
  { BlockID := blockID, TotalObjects := rows.length,
    openFile := Except.ok (rows.map ReadOutcome.row) }

/-- `backendBlock.Iterator` of `block_iterator.go`. -/
def backendBlock.Iterator (b : backendBlock) : Except GoError blockIterator :=
  match b.openFile with
  | Except.error err => Except.error err
  | Except.ok r => Except.ok { blockID := b.BlockID, r := r }

/-- The results of the first `n` calls of `Next`, in call order. -/
def nextResults : Nat → blockIterator → List (Option Trace × Option GoError)
  | 0, _ => []
  | n + 1, i => (i.Next).1 :: nextResults n (i.Next).2

/-! ## Search (`block_search_test.go`) -/

/-- `tempopb.SearchRequest`: the tag map as a list of entries, and the
duration bounds in milliseconds, 0 meaning not given. -/
structure SearchRequest where
  Tags : List (String × String)
  MinDurationMs : Nat
  MaxDurationMs : Nat
  deriving DecidableEq, Repr

/-- `tempopb.TraceSearchMetadata`. -/
structure TraceSearchMetadata where
  TraceID : String
  RootServiceName : String
  RootTraceName : String
  StartTimeUnixNano : Nat
  DurationMs : Nat
  deriving DecidableEq, Repr

/-- Modelled from the spec: label constant of `block_search.go` (source not
embedded here); "service.name" maps to `Resource.ServiceName`. -/
def LabelServiceName : String := "service.name"
/-- Modelled from the spec: label constant (source not embedded here). -/
def LabelCluster : String := "cluster"
/-- Modelled from the spec: label constant (source not embedded here). -/
def LabelNamespace : String := "namespace"
/-- Modelled from the spec: label constant (source not embedded here). -/
def LabelPod : String := "pod"
/-- Modelled from the spec: label constant (source not embedded here). -/
def LabelContainer : String := "container"
/-- Modelled from the spec: label constant (source not embedded here). -/
def LabelK8sClusterName : String := "k8s.cluster.name"
/-- Modelled from the spec: label constant (source not embedded here). -/
def LabelK8sNamespaceName : String := "k8s.namespace.name"
/-- Modelled from the spec: label constant (source not embedded here). -/
def LabelK8sPodName : String := "k8s.pod.name"
/-- Modelled from the spec: label constant (source not embedded here). -/
def LabelK8sContainerName : String := "k8s.container.name"
/-- Modelled from the spec: label constant (source not embedded here). -/
def LabelHTTPMethod : String := "http.method"
/-- Modelled from the spec: label constant (source not embedded here). -/
def LabelHTTPUrl : String := "http.url"
/-- Modelled from the spec: label constant (source not embedded here);
"http.status_code" maps to `Span.HttpStatusCode` formatted as decimal. -/
def LabelHTTPStatusCode : String := "http.status_code"
/-- Modelled from the spec: label constant (source not embedded here);
"status.code" maps to the status enum. -/
def LabelStatus : String := "status.code"
/-- Modelled from the spec: status name (source not embedded here). -/
def StatusCodeUnset : String := "unset"
/-- Modelled from the spec: status name (source not embedded here). -/
def StatusCodeOK : String := "ok"
/-- Modelled from the spec: status name (source not embedded here). -/
def StatusCodeError : String := "error"

/-- `v1.Status_STATUS_CODE_ERROR` of the trace protocol. -/
def Status_STATUS_CODE_ERROR : Int := 2

/-- Modelled from the spec: the "small enum-to-string mapping" of the span
status. -/
def statusName (code : Int) : String :=
  if code = 1 then StatusCodeOK else if code = 2 then StatusCodeError else StatusCodeUnset

/-- Decimal digits of a natural number, most significant first. -/
def decimalDigits : Nat → Nat → List Char
  | 0, _ => []
  | fuel + 1, n =>
    (if n < 10 then [] else decimalDigits fuel (n / 10)) ++ [Char.ofNat (48 + n % 10)]

/-- An integer formatted as decimal. -/
def formatDecimal (i : Int) : String :=
  if i < 0 then String.mk ('-' :: decimalDigits 20 i.natAbs)
  else String.mk (decimalDigits 20 i.toNat)

/-- Whether `sub` starts the character list. -/
def startsWithChars : List Char → List Char → Bool
  | _, [] => true
  | [], _ :: _ => false
  | c :: cs, d :: ds => decide (c = d) && startsWithChars cs ds

/-- Whether `sub` occurs in the character list as a contiguous run. -/
def containsChars : List Char → List Char → Bool
  | [], sub => startsWithChars [] sub
  | c :: cs, sub => startsWithChars (c :: cs) sub || containsChars cs sub

/-- Whether `sub` occurs in `s` as a substring. -/
def containsString (s sub : String) : Bool := containsChars s.data sub.data

/-- The spans of a trace, in order. -/
def Trace.spans (tr : Trace) : List Span :=
  tr.ResourceSpans.flatMap (fun rs => rs.InstrumentationLibrarySpans.flatMap (fun ils => ils.Spans))

/-- The resources of a trace, in order. -/
def Trace.resources (tr : Trace) : List Resource :=
  tr.ResourceSpans.map (fun rs => rs.Resource)

/-- The string values of the attributes with the given key. -/
def attrValues (key : String) (attrs : List Attribute) : List String :=
  attrs.filterMap (fun a => if a.Key = key then a.Value else none)

/-- Modelled from the spec: the values a tag key stands for in a trace.
Well-known keys map to fixed field accessors of the resources or spans
(absent optional fields give no value); any other key maps to the generic
attributes of that key on resources and spans. -/
def tagValues (key : String) (tr : Trace) : List String :=
  if key = LabelServiceName then tr.resources.map (fun r => r.ServiceName)
  else if key = LabelCluster then tr.resources.filterMap (fun r => r.Cluster)
  else if key = LabelNamespace then tr.resources.filterMap (fun r => r.Namespace)
  else if key = LabelPod then tr.resources.filterMap (fun r => r.Pod)
  else if key = LabelContainer then tr.resources.filterMap (fun r => r.Container)
  else if key = LabelK8sClusterName then tr.resources.filterMap (fun r => r.K8sClusterName)
  else if key = LabelK8sNamespaceName then tr.resources.filterMap (fun r => r.K8sNamespaceName)
  else if key = LabelK8sPodName then tr.resources.filterMap (fun r => r.K8sPodName)
  else if key = LabelK8sContainerName then tr.resources.filterMap (fun r => r.K8sContainerName)
  else if key = LabelHTTPMethod then tr.spans.filterMap (fun s => s.HttpMethod)
  else if key = LabelHTTPUrl then tr.spans.filterMap (fun s => s.HttpUrl)
  else if key = LabelHTTPStatusCode then
    tr.spans.filterMap (fun s => s.HttpStatusCode.map formatDecimal)
  else if key = LabelStatus then tr.spans.map (fun s => statusName s.StatusCode)
  else
    tr.resources.flatMap (fun r => attrValues key r.Attrs)
      ++ tr.spans.flatMap (fun s => attrValues key s.Attrs)

/-- Modelled from the spec: the comparison of a value found in the trace
with the requested value, as the spec words it: they are equal. -/
def exactMatch (_key found wanted : String) : Bool :=
  decide (found = wanted)

/-- The comparison that `TestBackendBlockSearch` requires: for the keys
`service.name` and `http.url` the requested value matches a value it occurs
in (the test asks for "service" in "myservice" and for "hello" in
"url/hello/world"); for every other key the values are equal, as the spec
words it. -/
def testedMatch (key found wanted : String) : Bool :=
  if key = LabelServiceName ∨ key = LabelHTTPUrl then containsString found wanted
  else decide (found = wanted)

/-- Modelled from the spec: the duration range, inclusive, in milliseconds;
a bound of 0 is not given. -/
def durationMatches (req : SearchRequest) (tr : Trace) : Bool :=
  let ms := tr.DurationNanos / 1000000
  (req.MinDurationMs = 0 || decide (req.MinDurationMs ≤ ms))
    && (req.MaxDurationMs = 0 || decide (ms ≤ req.MaxDurationMs))

/-- Whether one of the values found for a key matches the requested value:
an OR across the resources and spans of the trace. -/
def anyValueMatches (valueMatch : String → String → String → Bool) (key wanted : String) :
    List String → Bool
  | [] => false
  | found :: rest => valueMatch key found wanted || anyValueMatches valueMatch key wanted rest

/-- Whether every requested tag has a matching value in the trace: an AND
across the requested keys. -/
def tagsMatch (valueMatch : String → String → String → Bool) (tr : Trace) :
    List (String × String) → Bool
  | [] => true
  | kv :: rest =>
    anyValueMatches valueMatch kv.1 kv.2 (tagValues kv.1 tr) && tagsMatch valueMatch tr rest

/-- Modelled from the spec: the summary of a trace: identifier, start time,
duration in milliseconds (a 32-bit field), root service name and root span
name. -/
def traceSummary (tr : Trace) : TraceSearchMetadata :=
  { TraceID := tr.TraceID, RootServiceName := tr.RootServiceName,
    RootTraceName := tr.RootSpanName, StartTimeUnixNano := tr.StartTimeUnixNano,
    DurationMs := (tr.DurationNanos / 1000000) % 2 ^ 32 }

/-- Modelled from the spec: `backendBlock.Search` of `block_search.go`
(source not embedded here) as a scan over the rows of a block in storage
order: a row whose duration and tags match contributes its summary.  The
comparison of values is a parameter. -/
def SearchWith (valueMatch : String → String → String → Bool) :
    List Trace → SearchRequest → List TraceSearchMetadata
  | [], _ => []
  | tr :: rows, req =>
    if durationMatches req tr && tagsMatch valueMatch tr req.Tags then
      traceSummary tr :: SearchWith valueMatch rows req
    else SearchWith valueMatch rows req

/-- Modelled from the spec: `Search` as the spec words it, a requested tag
value matches a value it is equal to. -/
def SearchExact (rows : List Trace) (req : SearchRequest) : List TraceSearchMetadata :=
  SearchWith exactMatch rows req

/-- Modelled from the spec: `Search` with the comparison of the spec
changed only where `TestBackendBlockSearch` requires it, see `testedMatch`. -/
def Search (rows : List Trace) (req : SearchRequest) : List TraceSearchMetadata :=
  SearchWith testedMatch rows req

/-- `wantTr` of `TestBackendBlockSearch`.  The test draws a random trace
identifier and takes the current time as start time; both are fixed to
sample values here. -/
def wantTr : Trace :=
  { TraceID := "0102030405060708090a0b0c0d0e0f10"
    StartTimeUnixNano := 1660000000000000000
    DurationNanos := 100 * 1000000
    RootServiceName := "RootService"
    RootSpanName := "RootSpan"
    ResourceSpans := [
      { Resource :=
          { ServiceName := "myservice"
            Cluster := some "cluster"
            Namespace := some "namespace"
            Pod := some "pod"
            Container := some "container"
            K8sClusterName := some "k8scluster"
            K8sNamespaceName := some "k8snamespace"
            K8sPodName := some "k8spod"
            K8sContainerName := some "k8scontainer"
            Attrs := [{ Key := "bat", Value := some "baz" }] }
        InstrumentationLibrarySpans := [
          { Spans := [
              { Name := "hello"
                HttpMethod := some "get"
                HttpUrl := some "url/hello/world"
                HttpStatusCode := some 500
                ID := []
                ParentSpanID := []
                StatusCode := Status_STATUS_CODE_ERROR
                Attrs := [{ Key := "foo", Value := some "bar" }]
                Events := [] }] }] }] }

/-- `makeReq` of `TestBackendBlockSearch`. -/
def makeReq (k v : String) : SearchRequest :=
  { Tags := [(k, v)], MinDurationMs := 0, MaxDurationMs := 0 }

/-- `searchesThatMatch` of `TestBackendBlockSearch`. -/
def searchesThatMatch : List SearchRequest :=
  [ { Tags := [], MinDurationMs := 0, MaxDurationMs := 0 },
    { Tags := [], MinDurationMs := 99, MaxDurationMs := 101 },
    makeReq LabelServiceName "service",
    makeReq LabelCluster "cluster",
    makeReq LabelNamespace "namespace",
    makeReq LabelPod "pod",
    makeReq LabelContainer "container",
    makeReq LabelK8sClusterName "k8scluster",
    makeReq LabelK8sNamespaceName "k8snamespace",
    makeReq LabelK8sPodName "k8spod",
    makeReq LabelK8sContainerName "k8scontainer",
    makeReq LabelHTTPMethod "get",
    makeReq LabelHTTPUrl "hello",
    makeReq LabelHTTPStatusCode "500",
    makeReq LabelStatus StatusCodeError,
    makeReq "foo" "bar",
    makeReq "bat" "baz",
    { Tags := [("service.name", "service"), ("http.method", "get"), ("foo", "bar")],
      MinDurationMs := 0, MaxDurationMs := 0 } ]

/-- `searchesThatDontMatch` of `TestBackendBlockSearch`. -/
def searchesThatDontMatch : List SearchRequest :=
  [ { Tags := [], MinDurationMs := 101, MaxDurationMs := 0 },
    { Tags := [], MinDurationMs := 0, MaxDurationMs := 99 },
    makeReq LabelServiceName "foo",
    makeReq LabelCluster "foo",
    makeReq LabelNamespace "foo",
    makeReq LabelPod "foo",
    makeReq LabelContainer "foo",
    makeReq LabelHTTPMethod "post",
    makeReq LabelHTTPUrl "asdf",
    makeReq LabelHTTPStatusCode "200",
    makeReq LabelStatus StatusCodeOK,
    makeReq "foo" "baz" ]

/-- `expected` of `TestBackendBlockSearch`. -/
def expected : TraceSearchMetadata :=
  { TraceID := wantTr.TraceID
    StartTimeUnixNano := wantTr.StartTimeUnixNano
    DurationMs := (wantTr.DurationNanos / 1000000) % 2 ^ 32
    RootServiceName := wantTr.RootServiceName
    RootTraceName := wantTr.RootSpanName }

/-- The assertions of `TestBackendBlockSearch` on a search function, for the
block that holds `wantTr` alone: every request of `searchesThatMatch`
returns exactly `expected`, every request of `searchesThatDontMatch`
returns nothing. -/
def TestBackendBlockSearch (search : List Trace → SearchRequest → List TraceSearchMetadata) :
    Prop :=
  (∀ req ∈ searchesThatMatch, search [wantTr] req = [expected])
    ∧ (∀ req ∈ searchesThatDontMatch, search [wantTr] req = [])

instance (search : List Trace → SearchRequest → List TraceSearchMetadata) :
    Decidable (TestBackendBlockSearch search) := by
  unfold TestBackendBlockSearch; infer_instance

/-! ## Point lookup (`block_findtracebyid_test.go`) -/

/-- Modelled from the spec: the bloom index over trace identifiers.  The
membership test has no false negatives; its false positives are a
parameter. -/
structure BloomIndex where
  inserted : List String
  falsePositive : String → Bool

/-- Modelled from the spec: inserting an identifier during `Add`. -/
def BloomIndex.insert (b : BloomIndex) (id : String) : BloomIndex :=
  { b with inserted := id :: b.inserted }

/-- Modelled from the spec: the membership test of the bloom index. -/
def BloomIndex.test (b : BloomIndex) (id : String) : Bool :=
  decide (id ∈ b.inserted) || b.falsePositive id

/-- Modelled from the spec: the conditions of the error taxonomy that the
writer raises. -/
inductive BlockError where
  | InvalidTrace : BlockError
  | AlreadySealed : BlockError
  deriving DecidableEq, Repr

/-- Modelled from the spec: the streaming block writer (`newStreamingBlock`
of the package; source not embedded here): rows in the order added, bloom
index, object count, and whether `Complete` has run. -/
structure StreamingBlock where
  rows : List Trace
  bloom : BloomIndex
  TotalObjects : Nat
  isSealed : Bool

/-- Modelled from the spec: `newStreamingBlock`, the `Open` state. -/
def newStreamingBlock (falsePositive : String → Bool) : StreamingBlock :=
  { rows := [], bloom := { inserted := [], falsePositive := falsePositive },
    TotalObjects := 0, isSealed := false }

/-- Modelled from the spec: the schema-mapping invariants of a trace: the
identifier and every resource service name are non-empty. -/
def validTrace (tr : Trace) : Bool :=
  decide (tr.TraceID ≠ "") && tr.resources.all (fun r => decide (r.ServiceName ≠ ""))

/-- Modelled from the spec: `Add`: append the row, insert the identifier
into the bloom index, count the object; `InvalidTrace` leaves the writer
usable, `AlreadySealed` after `Complete`. -/
def StreamingBlock.Add (s : StreamingBlock) (tr : Trace) : Except BlockError StreamingBlock :=
  if s.isSealed then Except.error BlockError.AlreadySealed
  else if validTrace tr = false then Except.error BlockError.InvalidTrace
  else Except.ok { s with rows := s.rows ++ [tr], bloom := s.bloom.insert tr.TraceID,
                          TotalObjects := s.TotalObjects + 1 }

/-- Modelled from the spec: `Complete`: seals the block. -/
def StreamingBlock.Complete (s : StreamingBlock) : Except BlockError StreamingBlock :=
  if s.isSealed then Except.error BlockError.AlreadySealed
  else Except.ok { s with isSealed := true }

/-- The test's sequence `s.Add(t1); s.Add(t2); ...; s.Complete()`, every
call required to succeed. -/
def buildBlock : StreamingBlock → List Trace → Except BlockError StreamingBlock
  | s, [] => s.Complete
  | s, tr :: trs =>
    match s.Add tr with
    | Except.error e => Except.error e
    | Except.ok s2 => buildBlock s2 trs

/-- Modelled from the spec: `backendBlock.FindTraceByID` (source not
embedded here): a negative bloom test is "not found"; otherwise the rows are
scanned for the identifier and the row found is mapped back by the schema
mapper `toProto` (`parquetTraceToTempopbTrace`); no matching row is "not
found".  `none` is "not found". -/
def FindTraceByID {α : Type} (toProto : Trace → α) (b : StreamingBlock) (id : String) :
    Option α :=
  if b.bloom.test id = false then none
  else (b.rows.find? (fun tr => decide (tr.TraceID = id))).map toProto

/-- The block of `TestBackendBlockFindTraceByID` after both `Add` calls and
`Complete`, for a bloom index that reports every identifier as possibly
present. -/
def findTestBlock (otherID wantID : String) (traces : List Trace) : StreamingBlock :=
  { rows := traces
    bloom := { inserted := [wantID, otherID], falsePositive := fun _ => true }
    TotalObjects := 2
    isSealed := true }

/-- The first trace added by `TestBackendBlockFindTraceByID`. -/
def otherTr (traceID : String) : Trace :=
  { TraceID := traceID, StartTimeUnixNano := 0, DurationNanos := 0, RootServiceName := "",
    RootSpanName := ""
    ResourceSpans := [
      { Resource :=
          { ServiceName := "s", Cluster := none, Namespace := none, Pod := none,
            Container := none, K8sClusterName := none, K8sNamespaceName := none,
            K8sPodName := none, K8sContainerName := none, Attrs := [] }
        InstrumentationLibrarySpans := [
          { Spans := [
              { Name := "hello", HttpMethod := none, HttpUrl := none, HttpStatusCode := none,
                ID := [], ParentSpanID := [], StatusCode := 0,
                Attrs := [{ Key := "foo", Value := some "bar" }], Events := [] }] }] }] }

/-- `wantTr` of `TestBackendBlockFindTraceByID`. -/
def wantFindTr (traceID : String) : Trace :=
  { TraceID := traceID, StartTimeUnixNano := 0, DurationNanos := 0, RootServiceName := "",
    RootSpanName := ""
    ResourceSpans := [
      { Resource :=
          { ServiceName := "s", Cluster := none, Namespace := none, Pod := none,
            Container := none, K8sClusterName := none, K8sNamespaceName := none,
            K8sPodName := none, K8sContainerName := none, Attrs := [] }
        InstrumentationLibrarySpans := [
          { Spans := [
              { Name := "hello", HttpMethod := none, HttpUrl := none, HttpStatusCode := none,
                ID := [], ParentSpanID := [], StatusCode := 0,
                Attrs := [{ Key := "foo", Value := some "bar" }],
                Events := [{ Attrs := [{ Key := "foo", Value := "baz" }] }] }] }] }] }

end VParquet

/-! # Theorems -/

set_option maxRecDepth 100000

namespace Delta

/-! ## Machine integers: basic facts -/

theorem toSigned_of_inRange (b : Nat) (hb : b = 32 ∨ b = 64) (x : Int) (h : InRange b x) :
    toSigned b x = x := by
  unfold InRange at h
  unfold toSigned
  rcases hb with rfl | rfl <;> norm_num at * <;> omega

theorem toSigned_inRange (b : Nat) (hb : b = 32 ∨ b = 64) (x : Int) :
    InRange b (toSigned b x) := by
  unfold InRange toSigned
  rcases hb with rfl | rfl <;> norm_num <;> omega

theorem inRange_64_of (b : Nat) (hb : b = 32 ∨ b = 64) (x : Int) (h : InRange b x) :
    InRange 64 x := by
  unfold InRange at *
  rcases hb with rfl | rfl <;> norm_num at * <;> omega

theorem toUnsigned_lt (b : Nat) (x : Int) : toUnsigned b x < 2 ^ b := by
  unfold toUnsigned
  have hpos : (0 : Int) < ((2 ^ b : Nat) : Int) := by positivity
  have h1 := Int.emod_nonneg x (ne_of_gt hpos)
  have h2 := Int.emod_lt_of_pos x hpos
  omega

/-! ## Bit lengths -/

theorem lt_two_pow_bitsLenAux (fuel n : Nat) (h : n < 2 ^ fuel) : n < 2 ^ bitsLenAux fuel n := by
  induction fuel generalizing n with
  | zero => simp at h; simp [bitsLenAux, h]
  | succ f ih =>
    unfold bitsLenAux
    split
    · simp [*]
    · have h2 : n / 2 < 2 ^ f := by
        rw [pow_succ] at h; omega
      have := ih (n / 2) h2
      rw [pow_succ]; omega

theorem lt_two_pow_bitsLen (n : Nat) (h : n < 2 ^ 64) : n < 2 ^ bitsLen n :=
  lt_two_pow_bitsLenAux 64 n h

theorem bitsLenAux_le (fuel n w : Nat) (h : n < 2 ^ w) : bitsLenAux fuel n ≤ w := by
  induction fuel generalizing n w with
  | zero => simp [bitsLenAux]
  | succ f ih =>
    unfold bitsLenAux
    split
    · simp
    · cases w with
      | zero => simp at h; omega
      | succ w =>
        have h2 : n / 2 < 2 ^ w := by rw [pow_succ] at h; omega
        have := ih (n / 2) w h2
        omega

theorem bitsLen_zero : bitsLen 0 = 0 := by simp [bitsLen, bitsLenAux]

theorem mod_two_pow_of_bitsLen_le (n w : Nat) (h64 : n < 2 ^ 64) (h : bitsLen n ≤ w) :
    n % 2 ^ w = n := by
  apply Nat.mod_eq_of_lt
  exact lt_of_lt_of_le (lt_two_pow_bitsLen n h64) (Nat.pow_le_pow_right (by norm_num) h)

theorem toUnsigned_lt_64 (b : Nat) (hb : b = 32 ∨ b = 64) (x : Int) : toUnsigned b x < 2 ^ 64 := by
  have := toUnsigned_lt b x
  rcases hb with rfl | rfl
  · exact lt_trans this (by norm_num)
  · exact this

theorem bitsLen_toUnsigned_le (b : Nat) (x : Int) : bitsLen (toUnsigned b x) ≤ b :=
  bitsLenAux_le 64 _ b (toUnsigned_lt b x)

/-! ## Variable-length integers: reading back what was written -/

theorem getUvarintAux_putUvarintAux (fuel x : Nat) (rest : List Nat) (h : x < 128 ^ (fuel + 1)) :
    getUvarintAux (fuel + 1) (putUvarintAux fuel x ++ rest) = some (x, rest) := by
  induction fuel generalizing x with
  | zero =>
    simp at h
    have h256 : x % 256 = x := by omega
    simp [putUvarintAux, getUvarintAux, h256, h]
  | succ f ih =>
    unfold putUvarintAux
    split
    · rename_i hx
      simp [getUvarintAux, hx]
    · rename_i hx
      have h2 : x / 128 < 128 ^ (f + 1) := by
        rw [pow_succ] at h; omega
      have := ih (x / 128) h2
      simp only [List.cons_append]
      rw [getUvarintAux]
      have hc : ¬ (x % 128 + 128 < 128) := by omega
      simp only [hc, if_false, this]
      congr 2
      omega

theorem getUvarint_putUvarint (x : Nat) (rest : List Nat) :
    getUvarint (putUvarint x ++ rest) = some (x % 2 ^ 64, rest) := by
  unfold getUvarint putUvarint
  have hlt : x % 2 ^ 64 < 2 ^ 64 := Nat.mod_lt _ (by norm_num)
  rw [getUvarintAux_putUvarintAux 9 (x % 2 ^ 64) rest (lt_trans hlt (by norm_num))]
  simp only [hlt, if_true]

theorem getVarint_putVarint (x : Int) (rest : List Nat) :
    getVarint (putVarint x ++ rest) = some (toSigned 64 x, rest) := by
  unfold getVarint putVarint
  simp only [getUvarint_putUvarint]
  have hr := toSigned_inRange 64 (Or.inr rfl) x
  unfold InRange at hr
  norm_num at hr
  generalize toSigned 64 x = v at hr
  congr 2
  split_ifs with h1 h2 h2 <;> norm_num at * <;> omega

/-! ## Packing and unpacking -/

theorem miniBlockSize_eq : miniBlockSize = 32 := by decide

theorem bytesLE_length (n x : Nat) : (bytesLE n x).length = n := by
  induction n generalizing x with
  | zero => rfl
  | succ n ih => simp [bytesLE, ih]

theorem unbytesLE_bytesLE (n x : Nat) : unbytesLE (bytesLE n x) = x % 256 ^ n := by
  induction n generalizing x with
  | zero => simp [bytesLE, unbytesLE, Nat.mod_one]
  | succ n ih =>
    simp only [bytesLE, unbytesLE, ih]
    rw [pow_succ, Nat.mul_comm (256 ^ n) 256, Nat.mod_mul]

theorem bytesLE_mod (n x : Nat) : bytesLE n (x % 256 ^ n) = bytesLE n x := by
  induction n generalizing x with
  | zero => rfl
  | succ n ih =>
    simp only [bytesLE]
    have h1 : x % 256 ^ (n + 1) % 256 = x % 256 := by
      rw [pow_succ, Nat.mul_comm]
      exact Nat.mod_mul_right_mod x 256 (256 ^ n)
    have h2 : x % 256 ^ (n + 1) / 256 = (x / 256) % 256 ^ n := by
      rw [pow_succ, Nat.mul_comm, Nat.mod_mul_right_div_self]
    rw [h1, h2, ih]

theorem bytesLE_add (a c x : Nat) :
    bytesLE (a + c) x = bytesLE a x ++ bytesLE c (x / 256 ^ a) := by
  induction a generalizing x with
  | zero => simp [bytesLE]
  | succ a ih =>
    have e : a + 1 + c = (a + c) + 1 := by omega
    rw [e]
    simp only [bytesLE, List.cons_append, ih]
    rw [Nat.div_div_eq_div_mul, pow_succ, Nat.mul_comm]

theorem bytesLE_add_mul (n x y : Nat) (hx : x < 256 ^ n) (c : Nat) :
    bytesLE (n + c) (x + 256 ^ n * y) = bytesLE n x ++ bytesLE c y := by
  rw [bytesLE_add]
  have hpos : 0 < 256 ^ n := by positivity
  have h1 : (x + 256 ^ n * y) / 256 ^ n = y := by
    rw [Nat.add_mul_div_left _ _ hpos, Nat.div_eq_of_lt hx, Nat.zero_add]
  have h2 : bytesLE n (x + 256 ^ n * y) = bytesLE n x := by
    rw [← bytesLE_mod, Nat.add_mul_mod_self_left, Nat.mod_eq_of_lt hx]
  rw [h1, h2]

theorem packBits_lt (w : Nat) (vs : List Nat) : packBits w vs < 2 ^ (w * vs.length) := by
  induction vs with
  | nil => simp [packBits]
  | cons v vs ih =>
    simp only [packBits, List.length_cons]
    have hpos : 0 < 2 ^ w := by positivity
    have h1 : v % 2 ^ w < 2 ^ w := Nat.mod_lt _ hpos
    have e : 2 ^ (w * (vs.length + 1)) = 2 ^ w * 2 ^ (w * vs.length) := by
      rw [Nat.mul_add, Nat.mul_one, pow_add, Nat.mul_comm]
    rw [e]
    have h2 : packBits w vs + 1 ≤ 2 ^ (w * vs.length) := ih
    calc v % 2 ^ w + 2 ^ w * packBits w vs
        < 2 ^ w + 2 ^ w * packBits w vs := by omega
      _ = 2 ^ w * (packBits w vs + 1) := by ring
      _ ≤ 2 ^ w * 2 ^ (w * vs.length) := Nat.mul_le_mul_left _ h2

theorem unpackBits_packBits (w n : Nat) (vs : List Nat) (h : n ≤ vs.length) :
    unpackBits w n (packBits w vs) = (vs.take n).map (fun v => v % 2 ^ w) := by
  induction n generalizing vs with
  | zero => simp [unpackBits]
  | succ n ih =>
    cases vs with
    | nil => simp at h
    | cons v vs =>
      have hpos : 0 < 2 ^ w := by positivity
      simp only [unpackBits, packBits, List.take_succ_cons, List.map_cons]
      have h1 : (v % 2 ^ w + 2 ^ w * packBits w vs) % 2 ^ w = v % 2 ^ w := by
        rw [Nat.add_mul_mod_self_left, Nat.mod_mod]
      have h2 : (v % 2 ^ w + 2 ^ w * packBits w vs) / 2 ^ w = packBits w vs := by
        rw [Nat.add_mul_div_left _ _ hpos, Nat.div_eq_of_lt (Nat.mod_lt _ hpos), Nat.zero_add]
      rw [h1, h2, ih vs (by simpa using h)]

theorem unbytesLE_pack (w : Nat) (vs : List Nat) (h : vs.length = 32) :
    unbytesLE (bytesLE (4 * w) (packBits w vs)) = packBits w vs := by
  rw [unbytesLE_bytesLE]
  apply Nat.mod_eq_of_lt
  have := packBits_lt w vs
  rw [h] at this
  have e : (256 : Nat) ^ (4 * w) = 2 ^ (w * 32) := by
    have : (256 : Nat) = 2 ^ 8 := by norm_num
    rw [this, ← pow_mul]; congr 1; omega
  rw [e]; exact this

theorem orBits_eq_packBits (w : Nat) (vs : List Nat) (h : ∀ v ∈ vs, v < 2 ^ w) :
    orBits w vs = packBits w vs := by
  induction vs with
  | nil => rfl
  | cons v vs ih =>
    have hv : v < 2 ^ w := h v (List.mem_cons_self _ _)
    simp only [orBits, packBits, ih (fun x hx => h x (List.mem_cons_of_mem _ hx))]
    rw [Nat.mod_eq_of_lt hv, Nat.or_comm, ← Nat.mul_add_lt_is_or hv, Nat.add_comm]

/-! ## The dedicated packing paths agree with the default packer -/

theorem bitsToNat_bitsOf_append (w v : Nat) (cs : List Bool) :
    bitsToNat (bitsOf w v ++ cs) = v % 2 ^ w + 2 ^ w * bitsToNat cs := by
  induction w generalizing v with
  | zero => simp [bitsOf, Nat.mod_one]
  | succ w ih =>
    have h2 : v % 2 ^ (w + 1) = v % 2 + 2 * (v / 2 % 2 ^ w) := by
      rw [pow_succ, Nat.mul_comm, Nat.mod_mul]
    have h3 : bitsToNat (bitsOf (w + 1) v ++ cs)
        = (if v % 2 = 1 then 1 else 0) + 2 * bitsToNat (bitsOf w (v / 2) ++ cs) := by
      simp [bitsOf, bitsToNat]
    rw [h3, ih, h2, pow_succ]
    rcases Nat.mod_two_eq_zero_or_one v with h | h <;> simp [h] <;> ring

theorem bitsToNat_flatMap (w : Nat) (vs : List Nat) :
    bitsToNat (vs.flatMap (bitsOf w)) = packBits w vs := by
  induction vs with
  | nil => simp [bitsToNat, packBits]
  | cons v vs ih => simp only [List.flatMap_cons, bitsToNat_bitsOf_append, ih, packBits]

theorem pack1bit_eq (k : Nat) (vs : List Nat) (h : vs.length = 8 * k) :
    pack1bit vs = bytesLE k (packBits 1 vs) := by
  induction k generalizing vs with
  | zero =>
    have : vs = [] := List.length_eq_zero.mp (by simpa using h)
    subst this; simp [pack1bit, bytesLE]
  | succ k ih =>
    match vs, h with
    | a0 :: a1 :: a2 :: a3 :: a4 :: a5 :: a6 :: a7 :: rest, h =>
      have hr : rest.length = 8 * k := by simp at h; omega
      simp only [pack1bit, packBits, bytesLE, ih rest hr]
      congr 1
      · omega
      · congr 1; omega

theorem pack2bits_eq (k : Nat) (vs : List Nat) (h : vs.length = 4 * k) :
    pack2bits vs = bytesLE k (packBits 2 vs) := by
  induction k generalizing vs with
  | zero =>
    have : vs = [] := List.length_eq_zero.mp (by simpa using h)
    subst this; simp [pack2bits, bytesLE]
  | succ k ih =>
    match vs, h with
    | a0 :: a1 :: a2 :: a3 :: rest, h =>
      have hr : rest.length = 4 * k := by simp at h; omega
      simp only [pack2bits, packBits, bytesLE, ih rest hr]
      congr 1
      · omega
      · congr 1; omega

theorem flatMap_bytesLE_eq (n : Nat) (vs : List Nat) :
    vs.flatMap (bytesLE n) = bytesLE (n * vs.length) (packBits (8 * n) vs) := by
  induction vs with
  | nil => simp [bytesLE, packBits]
  | cons v vs ih =>
    have e : (2 : Nat) ^ (8 * n) = 256 ^ n := by
      have : (256 : Nat) = 2 ^ 8 := by norm_num
      rw [this, ← pow_mul]
    have hpos : 0 < 256 ^ n := by positivity
    simp only [List.flatMap_cons, List.length_cons, packBits, ih, e]
    have e2 : n * (vs.length + 1) = n + n * vs.length := by ring
    rw [e2, bytesLE_add_mul n _ _ (Nat.mod_lt _ hpos), bytesLE_mod]

theorem miniBlockPackInt32AVX2_eq_default (src : List Int) (w : Nat) (h : src.length = 32)
    (hfit : ∀ v ∈ src, toUnsigned 32 v < 2 ^ w) :
    miniBlockPackInt32AVX2 src w = miniBlockPackInt32Default src w := by
  have hl : (src.map (toUnsigned 32)).length = 32 := by simp [h]
  have hor : orBits w (src.map (toUnsigned 32)) = packBits w (src.map (toUnsigned 32)) := by
    apply orBits_eq_packBits
    intro u hu
    obtain ⟨v, hv, rfl⟩ := List.mem_map.mp hu
    exact hfit v hv
  unfold miniBlockPackInt32AVX2 miniBlockPackInt32Default miniBlockPackDefault
  rw [hor, miniBlockSize_eq]
  split_ifs with h1 h2 h3 h4
  · subst h1
    exact pack1bit_eq 4 _ (by simp [h])
  · subst h2
    exact pack2bits_eq 8 _ (by simp [h])
  · subst h3
    unfold miniBlockPackInt32x32bitsAVX2
    rw [flatMap_bytesLE_eq, hl]
  · unfold miniBlockPackInt32x3to16bitsAVX2
    rw [bitsToNat_flatMap, miniBlockSize_eq]
  · rfl

theorem miniBlockPackInt64AVX2_eq_default (src : List Int) (w : Nat) (h : src.length = 32)
    (hfit : ∀ v ∈ src, toUnsigned 64 v < 2 ^ w) :
    miniBlockPackInt64AVX2 src w = miniBlockPackInt64Default src w := by
  have hl : (src.map (toUnsigned 64)).length = 32 := by simp [h]
  have hor : orBits w (src.map (toUnsigned 64)) = packBits w (src.map (toUnsigned 64)) := by
    apply orBits_eq_packBits
    intro u hu
    obtain ⟨v, hv, rfl⟩ := List.mem_map.mp hu
    exact hfit v hv
  unfold miniBlockPackInt64AVX2 miniBlockPackInt64Default miniBlockPackDefault
  rw [hor, miniBlockSize_eq]
  split_ifs with h1 h2 h3
  · subst h1
    exact pack1bit_eq 4 _ (by simp [h])
  · subst h2
    exact pack2bits_eq 8 _ (by simp [h])
  · subst h3
    unfold miniBlockPackInt64x64bitsAVX2
    rw [flatMap_bytesLE_eq, hl]
  · rfl

theorem miniBlockPackDefault_length (b : Nat) (src : List Int) (w : Nat) :
    (miniBlockPackDefault b src w).length = miniBlockSize * w / 8 := by
  simp [miniBlockPackDefault, bytesLE_length]

/-! ## Shape of a prepared block -/

theorem blockSize_eq : blockSize = 128 := rfl

theorem numMiniBlocks_eq : numMiniBlocks = 4 := rfl

theorem blockDelta_length (b : Nat) (block : List Int) (lastValue : Int) :
    (blockDelta b block lastValue).1.length = block.length := by
  induction block generalizing lastValue with
  | nil => rfl
  | cons v vs ih => simp [blockDelta, ih]

theorem blockDelta_append (b : Nat) (xs ys : List Int) (lastValue : Int) :
    (blockDelta b (xs ++ ys) lastValue).1
      = (blockDelta b xs lastValue).1 ++ (blockDelta b ys (blockDelta b xs lastValue).2).1 := by
  induction xs generalizing lastValue with
  | nil => simp [blockDelta]
  | cons v vs ih => simp [blockDelta, ih]

theorem blockDelta_last (b : Nat) (xs : List Int) (lastValue : Int) :
    (blockDelta b xs lastValue).2 = xs.getLastD lastValue := by
  induction xs generalizing lastValue with
  | nil => rfl
  | cons v vs ih =>
    simp only [blockDelta, ih]
    cases vs <;> simp [List.getLastD]

theorem loadBlock_length (rest : List Int) : (loadBlock rest).1.length = blockSize := by
  simp only [loadBlock, List.length_append, List.length_replicate, List.length_take]
  omega

theorem blockPrepare_length (b : Nat) (rest : List Int) (lastValue : Int) :
    (blockPrepare b rest lastValue).2.1.length = blockSize := by
  simp only [blockPrepare, blockClear, blockSub, List.length_append, List.length_take,
    List.length_map, List.length_replicate, blockDelta_length, loadBlock_length]
  omega

theorem chunk_length (block : List Int) (i : Nat) (h : block.length = blockSize)
    (hi : i < numMiniBlocks) :
    ((block.drop (i * miniBlockSize)).take miniBlockSize).length = 32 := by
  simp only [List.length_take, List.length_drop, h, miniBlockSize_eq, blockSize_eq]
  rw [numMiniBlocks_eq] at hi
  omega

theorem blockBitWidths_eq (b : Nat) (block : List Int) :
    blockBitWidths b block =
      [miniBlockBitWidth b ((block.drop (0 * miniBlockSize)).take miniBlockSize),
       miniBlockBitWidth b ((block.drop (1 * miniBlockSize)).take miniBlockSize),
       miniBlockBitWidth b ((block.drop (2 * miniBlockSize)).take miniBlockSize),
       miniBlockBitWidth b ((block.drop (3 * miniBlockSize)).take miniBlockSize)] := rfl

theorem chunks_flatten (block : List Int) (h : block.length = blockSize) :
    (block.drop (0 * miniBlockSize)).take miniBlockSize ++
      ((block.drop (1 * miniBlockSize)).take miniBlockSize ++
      ((block.drop (2 * miniBlockSize)).take miniBlockSize ++
      (block.drop (3 * miniBlockSize)).take miniBlockSize)) = block := by
  rw [miniBlockSize_eq]
  rw [blockSize_eq] at h
  have e1 : List.drop (2 * 32) block = List.drop 32 (List.drop (1 * 32) block) := by
    rw [List.drop_drop]
  have e2 : List.drop (3 * 32) block = List.drop 32 (List.drop (2 * 32) block) := by
    rw [List.drop_drop]
  have e3 : List.take 32 (List.drop (3 * 32) block) = List.drop (3 * 32) block := by
    apply List.take_of_length_le
    simp [h]
  have e0 : List.drop (1 * 32) block = List.drop 32 (List.drop (0 * 32) block) := by
    rw [List.drop_drop]
  rw [e3, e2, List.take_append_drop, e1, List.take_append_drop, e0, List.take_append_drop]
  simp

/-- The bytes that the encoder loop appends for mini-block `i`. -/
theorem packMiniBlocks_eq (pack : List Int → Nat → List Nat) (block : List Int)
    (i : Nat) (ws dst : List Nat) :
    packMiniBlocks pack block i ws dst
      = dst ++ packMiniBlocks pack block i ws [] := by
  induction ws generalizing i dst with
  | nil => simp [packMiniBlocks]
  | cons w ws ih =>
    simp only [packMiniBlocks]
    rw [ih (i + 1) (if w ≠ 0 then _ else dst), ih (i + 1) (if w ≠ 0 then _ else [])]
    split <;> simp

theorem foldl_bitWidth_ge (b : Nat) (l : List Int) (w0 : Nat) :
    (∀ x ∈ l, bitsLen (toUnsigned b x)
        ≤ l.foldl (fun w v => max w (bitsLen (toUnsigned b v))) w0)
      ∧ w0 ≤ l.foldl (fun w v => max w (bitsLen (toUnsigned b v))) w0 := by
  induction l generalizing w0 with
  | nil => simp
  | cons a l ih =>
    simp only [List.foldl_cons, List.mem_cons]
    have h := ih (max w0 (bitsLen (toUnsigned b a)))
    refine ⟨?_, ?_⟩
    · intro x hx
      rcases hx with rfl | hx
      · exact le_trans (le_max_right _ _) h.2
      · exact h.1 x hx
    · exact le_trans (le_max_left _ _) h.2

theorem miniBlockBitWidth_ge (b : Nat) (mb : List Int) (v : Int) (hv : v ∈ mb) :
    bitsLen (toUnsigned b v) ≤ miniBlockBitWidth b mb :=
  (foldl_bitWidth_ge b mb 0).1 v hv

/-- Every value of a mini-block fits in the bit width computed for it. -/
theorem chunk_fits (b : Nat) (hb : b = 32 ∨ b = 64) (c : List Int) :
    ∀ v ∈ c, toUnsigned b v < 2 ^ miniBlockBitWidth b c := by
  intro v hv
  exact lt_of_lt_of_le (lt_two_pow_bitsLen _ (toUnsigned_lt_64 b hb v))
    (Nat.pow_le_pow_right (by norm_num) (miniBlockBitWidth_ge b c v hv))

theorem orBits_chunk (b : Nat) (hb : b = 32 ∨ b = 64) (c : List Int) :
    orBits (miniBlockBitWidth b c) (c.map (toUnsigned b))
      = packBits (miniBlockBitWidth b c) (c.map (toUnsigned b)) := by
  apply orBits_eq_packBits
  intro u hu
  obtain ⟨v, hv, rfl⟩ := List.mem_map.mp hu
  exact chunk_fits b hb c v hv

/-! ## One block: the decoder reads back what the encoder wrote -/

theorem addDeltas_append (m last : Int) (xs ys : List Nat) :
    addDeltas m last (xs ++ ys)
      = ((addDeltas m last xs).1 ++ (addDeltas m (addDeltas m last xs).2 ys).1,
         (addDeltas m (addDeltas m last xs).2 ys).2) := by
  induction xs generalizing last with
  | nil => simp [addDeltas]
  | cons x xs ih => simp [addDeltas, ih]

theorem addDeltas_inRange (m last : Int) (ds : List Nat) :
    ∀ v ∈ (addDeltas m last ds).1, InRange 64 v := by
  induction ds generalizing last with
  | nil => simp [addDeltas]
  | cons d ds ih =>
    intro v hv
    simp only [addDeltas, List.mem_cons] at hv
    rcases hv with rfl | hv
    · exact toSigned_inRange 64 (Or.inr rfl) _
    · exact ih _ v hv

theorem decode_step_min (b : Nat) (hb : b = 32 ∨ b = 64) (last m v prev : Int)
    (hv : InRange b v) (hl : toSigned b last = prev) :
    toSigned b (toSigned 64 (last + toSigned 64 m +
      ((toUnsigned b (toSigned b (toSigned b (v - prev) - m)) : Nat) : Int))) = v := by
  unfold InRange at hv
  unfold toSigned toUnsigned at *
  rcases hb with rfl | rfl <;> norm_num at * <;> omega

theorem addDeltas_blockDelta (b : Nat) (hb : b = 32 ∨ b = 64) (m : Int) (vals : List Int)
    (hv : ∀ v ∈ vals, InRange b v) (prev last : Int) (hl : toSigned b last = prev) :
    (addDeltas (toSigned 64 m) last
        (((blockDelta b vals prev).1.map (fun d => toSigned b (d - m))).map
          (toUnsigned b))).1.map (toSigned b) = vals
    ∧ toSigned b (addDeltas (toSigned 64 m) last
        (((blockDelta b vals prev).1.map (fun d => toSigned b (d - m))).map
          (toUnsigned b))).2 = vals.getLastD prev := by
  induction vals generalizing prev last with
  | nil => simp [blockDelta, addDeltas, hl]
  | cons v vs ih =>
    have hstep := decode_step_min b hb last m v prev (hv v (List.mem_cons_self _ _)) hl
    have := ih (fun x hx => hv x (List.mem_cons_of_mem _ hx)) v _ hstep
    simp only [blockDelta, List.map_cons, addDeltas]
    refine ⟨?_, ?_⟩
    · rw [hstep, this.1]
    · rw [this.2]
      cases vs <;> simp [List.getLastD]

theorem miniBlockPackDefault_zero (b : Nat) (c : List Int) : miniBlockPackDefault b c 0 = [] := by
  simp [miniBlockPackDefault, bytesLE]

theorem miniBlockBytes_default (b : Nat) (c : List Int) (w : Nat) :
    (if w ≠ 0 then
        ([] : List Nat) ++ (miniBlockPackDefault b c w).take (miniBlockSize * w / 8)
      else []) = miniBlockPackDefault b c w := by
  split
  · rw [List.nil_append, List.take_of_length_le]
    rw [miniBlockPackDefault_length]
  · rename_i h
    have : w = 0 := by simpa using h
    subst this
    rw [miniBlockPackDefault_zero]

theorem unpack_chunk (b : Nat) (hb : b = 32 ∨ b = 64) (c : List Int) (hc : c.length = 32)
    (n : Nat) (hn : n ≤ 32) (rest : List Nat) :
    unpackBits (miniBlockBitWidth b c) n
      (unbytesLE ((miniBlockPackDefault b c (miniBlockBitWidth b c) ++ rest).take
        ((32 * miniBlockBitWidth b c + 7) / 8)))
      = (c.map (toUnsigned b)).take n := by
  have hsz : (32 * miniBlockBitWidth b c + 7) / 8 = 4 * miniBlockBitWidth b c := by omega
  have hlen : (miniBlockPackDefault b c (miniBlockBitWidth b c)).length
      = 4 * miniBlockBitWidth b c := by
    rw [miniBlockPackDefault_length, miniBlockSize_eq]; omega
  rw [hsz, List.take_append_of_le_length (by rw [hlen]), List.take_of_length_le (by rw [hlen])]
  unfold miniBlockPackDefault
  rw [miniBlockSize_eq, orBits_chunk b hb c]
  have e : 32 * miniBlockBitWidth b c / 8 = 4 * miniBlockBitWidth b c := by omega
  rw [e, unbytesLE_pack _ _ (by simp [hc]), unpackBits_packBits _ _ _ (by simp [hc, hn])]
  rw [← List.map_take, List.map_map]
  apply List.map_congr_left
  intro v hv
  have hv' : v ∈ c := List.mem_of_mem_take hv
  simp only [Function.comp]
  exact mod_two_pow_of_bitsLen_le _ _ (toUnsigned_lt_64 b hb v) (miniBlockBitWidth_ge b c v hv')

theorem decodeMiniBlocks_chunks (b : Nat) (hb : b = 32 ∨ b = 64) (m : Int)
    (cs : List (List Int)) (hcs : ∀ c ∈ cs, c.length = 32) (total : Nat) (last : Int)
    (rest : List Nat) :
    decodeMiniBlocks 32 m (cs.map (miniBlockBitWidth b)) total last
        ((cs.map (fun c => miniBlockPackDefault b c (miniBlockBitWidth b c))).flatten ++ rest)
      = some ((addDeltas m last ((cs.flatten.map (toUnsigned b)).take total)).1,
          total - 32 * cs.length,
          (addDeltas m last ((cs.flatten.map (toUnsigned b)).take total)).2, rest) := by
  induction cs generalizing total last with
  | nil => simp [decodeMiniBlocks, addDeltas]
  | cons c cs ih =>
    have hc : c.length = 32 := hcs c (List.mem_cons_self _ _)
    have hcs' : ∀ x ∈ cs, x.length = 32 := fun x hx => hcs x (List.mem_cons_of_mem _ hx)
    have hlen : (miniBlockPackDefault b c (miniBlockBitWidth b c)).length
        = 4 * miniBlockBitWidth b c := by
      rw [miniBlockPackDefault_length, miniBlockSize_eq]; omega
    have hsz : (32 * miniBlockBitWidth b c + 7) / 8 = 4 * miniBlockBitWidth b c := by omega
    simp only [List.map_cons, List.flatten_cons, List.append_assoc, decodeMiniBlocks]
    have hnot : ¬ ((miniBlockPackDefault b c (miniBlockBitWidth b c) ++
        ((cs.map (fun c => miniBlockPackDefault b c (miniBlockBitWidth b c))).flatten
          ++ rest)).length < (32 * miniBlockBitWidth b c + 7) / 8) := by
      rw [List.length_append, hlen, hsz]; omega
    rw [if_neg hnot, unpack_chunk b hb c hc _ (Nat.min_le_left _ _)]
    have hdrop : (miniBlockPackDefault b c (miniBlockBitWidth b c) ++
        ((cs.map (fun c => miniBlockPackDefault b c (miniBlockBitWidth b c))).flatten
          ++ rest)).drop ((32 * miniBlockBitWidth b c + 7) / 8)
        = (cs.map (fun c => miniBlockPackDefault b c (miniBlockBitWidth b c))).flatten
          ++ rest := by
      rw [hsz, ← hlen, List.drop_left]
    rw [hdrop, ih hcs']
    have htake : (List.map (toUnsigned b) (c ++ cs.flatten)).take total
        = (c.map (toUnsigned b)).take (min 32 total)
          ++ ((cs.flatten.map (toUnsigned b)).take (total - min 32 total)) := by
      rw [List.map_append, List.take_append_eq_append_take, List.length_map, hc]
      congr 1
      · rcases Nat.le_total 32 total with h | h
        · have h1 : (c.map (toUnsigned b)).take total = c.map (toUnsigned b) :=
            List.take_of_length_le (by rw [List.length_map, hc]; omega)
          have h2 : (c.map (toUnsigned b)).take 32 = c.map (toUnsigned b) :=
            List.take_of_length_le (by rw [List.length_map, hc])
          rw [Nat.min_eq_left h, h1, h2]
        · rw [Nat.min_eq_right h]
      · rcases Nat.le_total 32 total with h | h
        · rw [Nat.min_eq_left h]
        · rw [Nat.min_eq_right h]
          have : total - 32 = 0 := by omega
          simp [this]
    rw [htake, addDeltas_append]
    simp only [List.length_cons]
    congr 2
    congr 1
    omega

/-! ## The encoder loop -/

theorem encodeBlocks_dst (b : Nat) (pack : List Int → Nat → List Nat) (fuel : Nat)
    (dst : List Nat) (rest : List Int) (lastValue : Int) :
    encodeBlocks b pack fuel dst rest lastValue
      = dst ++ encodeBlocks b pack fuel [] rest lastValue := by
  induction fuel generalizing dst rest lastValue with
  | zero => simp [encodeBlocks]
  | succ fuel ih =>
    unfold encodeBlocks
    split
    · simp
    · simp only []
      rw [ih, packMiniBlocks_eq]
      conv => rhs; rw [ih, packMiniBlocks_eq]
      simp

theorem encodeBlocks_nil (b : Nat) (pack : List Int → Nat → List Nat) (fuel : Nat)
    (dst : List Nat) (lastValue : Int) :
    encodeBlocks b pack fuel dst [] lastValue = dst := by
  cases fuel <;> simp [encodeBlocks]

theorem encodeBlocks_step (b : Nat) (pack : List Int → Nat → List Nat) (fuel : Nat)
    (rest : List Int) (lastValue : Int) (h : rest ≠ []) :
    encodeBlocks b pack (fuel + 1) [] rest lastValue
      = encodeBlockHeader (blockPrepare b rest lastValue).1
            (blockBitWidths b (blockPrepare b rest lastValue).2.1)
          ++ packMiniBlocks pack (blockPrepare b rest lastValue).2.1 0
              (blockBitWidths b (blockPrepare b rest lastValue).2.1) []
          ++ encodeBlocks b pack fuel [] (rest.drop blockSize)
              (blockPrepare b rest lastValue).2.2 := by
  rw [encodeBlocks, if_neg h]
  simp only []
  rw [encodeBlocks_dst, packMiniBlocks_eq]
  simp

theorem blockHeaders_step (b : Nat) (fuel : Nat) (rest : List Int) (lastValue : Int)
    (h : rest ≠ []) :
    blockHeaders b (fuel + 1) rest lastValue
      = ((blockPrepare b rest lastValue).1,
          blockBitWidths b (blockPrepare b rest lastValue).2.1)
        :: blockHeaders b fuel (rest.drop blockSize) (blockPrepare b rest lastValue).2.2 := by
  rw [blockHeaders, if_neg h]

theorem blockHeaders_nil (b : Nat) (fuel : Nat) (lastValue : Int) :
    blockHeaders b fuel [] lastValue = [] := by
  cases fuel <;> simp [blockHeaders]

theorem packMiniBlocks_cons_congr (b : Nat) (hb : b = 32 ∨ b = 64)
    (pack pack2 : List Int → Nat → List Nat) (block : List Int)
    (hlen : block.length = blockSize)
    (h : ∀ c w, c.length = 32 → w ≠ 0 → (∀ v ∈ c, toUnsigned b v < 2 ^ w) →
      pack c w = pack2 c w)
    (i : Nat) (hi : i < numMiniBlocks) (ws : List Nat)
    (hrest : ∀ dst, packMiniBlocks pack block (i + 1) ws dst
      = packMiniBlocks pack2 block (i + 1) ws dst) (dst : List Nat) :
    packMiniBlocks pack block i
        (miniBlockBitWidth b ((block.drop (i * miniBlockSize)).take miniBlockSize) :: ws) dst
      = packMiniBlocks pack2 block i
        (miniBlockBitWidth b ((block.drop (i * miniBlockSize)).take miniBlockSize) :: ws)
        dst := by
  simp only [packMiniBlocks]
  by_cases hw : miniBlockBitWidth b ((block.drop (i * miniBlockSize)).take miniBlockSize) = 0
  · simp only [hw, ne_eq, not_true_eq_false, if_false]
    exact hrest dst
  · rw [h _ _ (chunk_length block i hlen hi) hw (chunk_fits b hb _)]
    exact hrest _

/-- Two packers that agree on the 32-value mini-blocks whose values fit in
a non-zero bit width give the same bytes for the mini-blocks of a block. -/
theorem packMiniBlocks_congr (b : Nat) (hb : b = 32 ∨ b = 64)
    (pack pack2 : List Int → Nat → List Nat) (block : List Int)
    (hlen : block.length = blockSize)
    (h : ∀ c w, c.length = 32 → w ≠ 0 → (∀ v ∈ c, toUnsigned b v < 2 ^ w) →
      pack c w = pack2 c w) (dst : List Nat) :
    packMiniBlocks pack block 0 (blockBitWidths b block) dst
      = packMiniBlocks pack2 block 0 (blockBitWidths b block) dst := by
  rw [blockBitWidths_eq]
  apply packMiniBlocks_cons_congr b hb pack pack2 block hlen h 0 (by decide)
  intro dst
  apply packMiniBlocks_cons_congr b hb pack pack2 block hlen h 1 (by decide)
  intro dst
  apply packMiniBlocks_cons_congr b hb pack pack2 block hlen h 2 (by decide)
  intro dst
  apply packMiniBlocks_cons_congr b hb pack pack2 block hlen h 3 (by decide)
  intro dst
  rfl

theorem blockBitWidths_length (b : Nat) (block : List Int) :
    (blockBitWidths b block).length = numMiniBlocks := by
  simp [blockBitWidths]

theorem encodeBlocks_congr (b : Nat) (hb : b = 32 ∨ b = 64)
    (pack pack2 : List Int → Nat → List Nat)
    (h : ∀ c w, c.length = 32 → w ≠ 0 → (∀ v ∈ c, toUnsigned b v < 2 ^ w) →
      pack c w = pack2 c w)
    (fuel : Nat) (dst : List Nat) (rest : List Int) (lastValue : Int) :
    encodeBlocks b pack fuel dst rest lastValue = encodeBlocks b pack2 fuel dst rest lastValue := by
  induction fuel generalizing dst rest lastValue with
  | zero => simp [encodeBlocks]
  | succ fuel ih =>
    by_cases hr : rest = []
    · subst hr; simp [encodeBlocks_nil]
    · rw [encodeBlocks_dst, encodeBlocks_step _ _ _ _ _ hr]
      conv => rhs; rw [encodeBlocks_dst, encodeBlocks_step _ _ _ _ _ hr]
      rw [ih, packMiniBlocks_congr b hb pack pack2 _ (blockPrepare_length b rest lastValue) h]

theorem packMiniBlocks_cons_default (b : Nat) (block : List Int) (i w : Nat) (ws : List Nat) :
    packMiniBlocks (miniBlockPackDefault b) block i (w :: ws) []
      = miniBlockPackDefault b ((block.drop (i * miniBlockSize)).take miniBlockSize) w
        ++ packMiniBlocks (miniBlockPackDefault b) block (i + 1) ws [] := by
  rw [packMiniBlocks, packMiniBlocks_eq, miniBlockBytes_default]

theorem packMiniBlocks_default (b : Nat) (block : List Int) :
    packMiniBlocks (miniBlockPackDefault b) block 0 (blockBitWidths b block) []
      = ([(block.drop (0 * miniBlockSize)).take miniBlockSize,
          (block.drop (1 * miniBlockSize)).take miniBlockSize,
          (block.drop (2 * miniBlockSize)).take miniBlockSize,
          (block.drop (3 * miniBlockSize)).take miniBlockSize].map
            (fun c => miniBlockPackDefault b c (miniBlockBitWidth b c))).flatten := by
  rw [blockBitWidths_eq, packMiniBlocks_cons_default, packMiniBlocks_cons_default,
    packMiniBlocks_cons_default, packMiniBlocks_cons_default]
  simp [packMiniBlocks]

theorem take_cleared (A Z : List Int) (n pad : Nat) (h : n = A.length ∨ (A.length ≤ n ∧ pad = 0)) :
    (List.take A.length (A ++ Z) ++ List.replicate pad (0 : Int)).take n = A := by
  rw [List.take_left]
  rcases h with h | ⟨h1, h2⟩
  · rw [h, List.take_left]
  · subst h2
    simp [List.take_of_length_le h1]

/-- The real entries of a prepared block are the adjusted deltas of the real values. -/
theorem blockPrepare_take (b : Nat) (rest : List Int) (lastValue : Int) :
    (blockPrepare b rest lastValue).2.1.take rest.length
      = (blockDelta b (rest.take blockSize) lastValue).1.map
          (fun d => toSigned b (d - (blockPrepare b rest lastValue).1)) := by
  simp only [blockPrepare, loadBlock, blockClear, blockSub]
  rw [blockDelta_append, List.map_append]
  generalize blockMin _ = m
  have hA : ((blockDelta b (List.take blockSize rest) lastValue).1.map
      (fun v => toSigned b (v - m))).length = (List.take blockSize rest).length := by
    rw [List.length_map, blockDelta_length]
  rw [← hA]
  apply take_cleared
  rw [hA, List.length_append, List.length_map, List.length_map, blockDelta_length,
    blockDelta_length, List.length_replicate, List.length_take, blockSize_eq]
  omega

theorem blockPrepare_last (b : Nat) (rest : List Int) (lastValue : Int)
    (h : blockSize ≤ rest.length) :
    (blockPrepare b rest lastValue).2.2 = (rest.take blockSize).getLastD lastValue := by
  simp only [blockPrepare, loadBlock]
  rw [blockDelta_last]
  have : blockSize - (List.take blockSize rest).length = 0 := by
    rw [List.length_take]; omega
  rw [this]
  simp

/-! ## Round trip of the block loop -/

theorem decodeBlocks_zero_total (bs nmb fuel : Nat) (last : Int) (src : List Nat) :
    decodeBlocks bs nmb fuel 0 last src = some ([], src) := by
  cases fuel <;> simp [decodeBlocks]

theorem decode_one_block (b : Nat) (hb : b = 32 ∨ b = 64) (rest : List Int)
    (hr : ∀ v ∈ rest, InRange b v) (prev last : Int) (hl : toSigned b last = prev)
    (tail : List Nat) :
    ∃ values last2,
      decodeMiniBlocks 32 (toSigned 64 (blockPrepare b rest prev).1)
          (blockBitWidths b (blockPrepare b rest prev).2.1) rest.length last
          (packMiniBlocks (miniBlockPackDefault b) (blockPrepare b rest prev).2.1 0
            (blockBitWidths b (blockPrepare b rest prev).2.1) [] ++ tail)
        = some (values, rest.length - 128, last2, tail)
      ∧ values.map (toSigned b) = rest.take blockSize
      ∧ toSigned b last2 = (rest.take blockSize).getLastD prev
      ∧ ∀ v ∈ values, InRange 64 v := by
  have hlen := blockPrepare_length b rest prev
  have hchunks : ∀ c ∈ [((blockPrepare b rest prev).2.1.drop (0 * miniBlockSize)).take miniBlockSize,
          ((blockPrepare b rest prev).2.1.drop (1 * miniBlockSize)).take miniBlockSize,
          ((blockPrepare b rest prev).2.1.drop (2 * miniBlockSize)).take miniBlockSize,
          ((blockPrepare b rest prev).2.1.drop (3 * miniBlockSize)).take miniBlockSize],
        c.length = 32 := by
    intro c hc
    simp only [List.mem_cons, List.mem_singleton, List.not_mem_nil, or_false] at hc
    rcases hc with rfl | rfl | rfl | rfl
    · exact chunk_length _ 0 hlen (by decide)
    · exact chunk_length _ 1 hlen (by decide)
    · exact chunk_length _ 2 hlen (by decide)
    · exact chunk_length _ 3 hlen (by decide)
  have hdec := decodeMiniBlocks_chunks b hb (toSigned 64 (blockPrepare b rest prev).1) _ hchunks
    rest.length last tail
  have hws : blockBitWidths b (blockPrepare b rest prev).2.1
      = List.map (miniBlockBitWidth b)
        [((blockPrepare b rest prev).2.1.drop (0 * miniBlockSize)).take miniBlockSize,
          ((blockPrepare b rest prev).2.1.drop (1 * miniBlockSize)).take miniBlockSize,
          ((blockPrepare b rest prev).2.1.drop (2 * miniBlockSize)).take miniBlockSize,
          ((blockPrepare b rest prev).2.1.drop (3 * miniBlockSize)).take miniBlockSize] := by
    rw [blockBitWidths_eq]; rfl
  have hflat : [((blockPrepare b rest prev).2.1.drop (0 * miniBlockSize)).take miniBlockSize,
          ((blockPrepare b rest prev).2.1.drop (1 * miniBlockSize)).take miniBlockSize,
          ((blockPrepare b rest prev).2.1.drop (2 * miniBlockSize)).take miniBlockSize,
          ((blockPrepare b rest prev).2.1.drop (3 * miniBlockSize)).take miniBlockSize].flatten
        = (blockPrepare b rest prev).2.1 := by
    have := chunks_flatten _ hlen
    simpa using this
  have hvals := addDeltas_blockDelta b hb (blockPrepare b rest prev).1 (rest.take blockSize)
    (fun v hv => hr v (List.mem_of_mem_take hv)) prev last hl
  rw [packMiniBlocks_default]
  conv => enter [1, values, 1, last2, 1, 1, 3]; rw [hws]
  rw [hflat, ← List.map_take, blockPrepare_take] at hdec
  exact ⟨_, _, hdec, hvals.1, hvals.2, addDeltas_inRange _ _ _⟩

theorem decodeBlocks_encodeBlocks (b : Nat) (hb : b = 32 ∨ b = 64) (fuel : Nat) :
    ∀ (fuel2 : Nat) (rest : List Int), (∀ v ∈ rest, InRange b v) → rest.length ≤ fuel →
      rest.length ≤ fuel2 → ∀ (prev last : Int), (rest ≠ [] → toSigned b last = prev) →
      ∀ tail : List Nat, ∃ values,
        decodeBlocks 128 4 fuel2 rest.length last
            (encodeBlocks b (miniBlockPackDefault b) fuel [] rest prev ++ tail)
          = some (values, tail)
        ∧ values.map (toSigned b) = rest ∧ ∀ v ∈ values, InRange 64 v := by
  induction fuel with
  | zero =>
    intro fuel2 rest _ hf _ prev last _ tail
    have : rest = [] := List.length_eq_zero.mp (by omega)
    subst this
    exact ⟨[], by simp [encodeBlocks, decodeBlocks_zero_total], rfl, by simp⟩
  | succ fuel ih =>
    intro fuel2 rest hr hf hf2 prev last hl tail
    by_cases hne : rest = []
    · subst hne
      exact ⟨[], by simp [encodeBlocks_nil, decodeBlocks_zero_total], rfl, by simp⟩
    · have hpos : 0 < rest.length := List.length_pos.mpr hne
      obtain ⟨f2, rfl⟩ : ∃ f2, fuel2 = f2 + 1 := ⟨fuel2 - 1, by omega⟩
      obtain ⟨values, last2, hdec, hmap, hlast, hvr⟩ :=
        decode_one_block b hb rest hr prev last (hl hne)
          (encodeBlocks b (miniBlockPackDefault b) fuel [] (rest.drop blockSize)
            (blockPrepare b rest prev).2.2 ++ tail)
      have hrest2 : ∀ v ∈ rest.drop blockSize, InRange b v :=
        fun v hv => hr v (List.mem_of_mem_drop hv)
      have hlen2 : (rest.drop blockSize).length = rest.length - 128 := by
        rw [List.length_drop, blockSize_eq]
      obtain ⟨more, hmore, hmoremap, hmr⟩ := ih f2 (rest.drop blockSize) hrest2
        (by rw [hlen2]; omega) (by rw [hlen2]; omega) (blockPrepare b rest prev).2.2 last2
        (by
          intro hne2
          have hge : blockSize ≤ rest.length := by
            have := List.length_pos.mpr hne2
            rw [hlen2] at this
            rw [blockSize_eq]; omega
          rw [blockPrepare_last b rest prev hge, hlast]) tail
      refine ⟨values ++ more, ?_, ?_, ?_⟩
      · rw [encodeBlocks_step _ _ _ _ _ hne, decodeBlocks, if_neg (by omega)]
        simp only [encodeBlockHeader, List.append_assoc, getVarint_putVarint]
        have hwl := blockBitWidths_length b (blockPrepare b rest prev).2.1
        rw [numMiniBlocks_eq] at hwl
        rw [if_neg (by rw [List.length_append, hwl]; omega)]
        rw [← hwl, List.take_left, List.drop_left]
        have e32 : 128 / (blockBitWidths b (blockPrepare b rest prev).2.1).length = 32 := by
          rw [hwl]
        rw [e32, hdec]
        simp only []
        rw [← hlen2, hwl, hmore]
      · rw [List.map_append, hmap, hmoremap, List.take_append_drop]
      · intro v hv
        rcases List.mem_append.mp hv with h | h
        · exact hvr v h
        · exact hmr v h

theorem decodeBinaryPackedHeader_encode (bs nmb total : Nat) (first : Int) (rest : List Nat) :
    decodeBinaryPackedHeader (encodeBinaryPackedHeader bs nmb total first ++ rest)
      = some (bs % 2 ^ 64, nmb % 2 ^ 64, total % 2 ^ 64, toSigned 64 first, rest) := by
  simp only [decodeBinaryPackedHeader, encodeBinaryPackedHeader, List.append_assoc,
    getUvarint_putUvarint, getVarint_putVarint]

theorem decode_encodeWith_default (b : Nat) (hb : b = 32 ∨ b = 64) (src : List Int)
    (hr : ∀ v ∈ src, InRange b v) (hn : src.length < 2 ^ 64) (tail : List Nat) :
    ∃ values,
      BinaryPackedEncoding.decode (encodeWith b (miniBlockPackDefault b) [] src ++ tail)
        = some (values, tail)
      ∧ values.map (toSigned b) = src ∧ ∀ v ∈ values, InRange 64 v := by
  unfold encodeWith BinaryPackedEncoding.decode
  simp only [List.nil_append]
  match src, hr, hn with
  | [], _, _ =>
    refine ⟨[], ?_, rfl, by simp⟩
    simp [decodeBinaryPackedHeader_encode]
  | [x], hr, _ =>
    have hx := inRange_64_of b hb x (hr x (List.mem_singleton_self x))
    refine ⟨[x], ?_, ?_, ?_⟩
    · simp [decodeBinaryPackedHeader_encode, blockSize, numMiniBlocks, decodeBlocks,
        toSigned_of_inRange 64 (Or.inr rfl) x hx]
    · simp [toSigned_of_inRange b hb x (hr x (List.mem_singleton_self x))]
    · simpa using hx
  | x :: y :: rest, hr, hn =>
    have hxb := hr x (List.mem_cons_self _ _)
    have hx := inRange_64_of b hb x hxb
    have hlen : ¬ ((x :: y :: rest).length < 2) := by simp
    rw [if_neg hlen, encodeBlocks_dst, List.append_assoc, decodeBinaryPackedHeader_encode]
    have hmod : (x :: y :: rest).length % 2 ^ 64 = (x :: y :: rest).length :=
      Nat.mod_eq_of_lt hn
    obtain ⟨values, hdec, hmap, hvr⟩ := decodeBlocks_encodeBlocks b hb (x :: y :: rest).length
      ((x :: y :: rest).length - 1) (y :: rest)
      (fun v hv => hr v (List.mem_cons_of_mem _ hv)) (by simp) (by simp) x x
      (fun _ => toSigned_of_inRange b hb x hxb) tail
    refine ⟨x :: values, ?_, ?_, ?_⟩
    · simp only [hmod, List.headD_cons, List.drop_succ_cons, List.drop_zero,
        toSigned_of_inRange 64 (Or.inr rfl) x hx]
      have e1 : blockSize % 2 ^ 64 = 128 := by decide
      have e2 : numMiniBlocks % 2 ^ 64 = 4 := by decide
      rw [e1, e2]
      have e3 : (x :: y :: rest).length - 1 = (y :: rest).length := by simp
      rw [e3] at hdec ⊢
      rw [hdec]
      simp
    · simp [hmap, toSigned_of_inRange b hb x hxb]
    · intro v hv
      rcases List.mem_cons.mp hv with rfl | h
      · exact hx
      · exact hvr v h

theorem encodeWith_congr (b : Nat) (hb : b = 32 ∨ b = 64)
    (pack pack2 : List Int → Nat → List Nat)
    (h : ∀ c w, c.length = 32 → w ≠ 0 → (∀ v ∈ c, toUnsigned b v < 2 ^ w) →
      pack c w = pack2 c w) (dst : List Nat)
    (src : List Int) : encodeWith b pack dst src = encodeWith b pack2 dst src := by
  unfold encodeWith
  simp only []
  split
  · rfl
  · exact encodeBlocks_congr b hb pack pack2 h _ _ _ _

theorem encodeInt32AVX2_eq_default (dst : List Nat) (src : List Int) :
    encodeInt32AVX2 dst src = encodeWith 32 (miniBlockPackDefault 32) dst src :=
  encodeWith_congr 32 (Or.inl rfl) _ _
    (fun c w hc _ hfit => miniBlockPackInt32AVX2_eq_default c w hc hfit) dst src

theorem encodeInt64AVX2_eq_default (dst : List Nat) (src : List Int) :
    encodeInt64AVX2 dst src = encodeWith 64 (miniBlockPackDefault 64) dst src :=
  encodeWith_congr 64 (Or.inr rfl) _ _
    (fun c w hc _ hfit => miniBlockPackInt64AVX2_eq_default c w hc hfit) dst src

theorem map_toSigned_of_inRange (b : Nat) (hb : b = 32 ∨ b = 64) (values : List Int)
    (h : ∀ v ∈ values, InRange b v) : values.map (toSigned b) = values := by
  induction values with
  | nil => rfl
  | cons v vs ih =>
    simp only [List.map_cons]
    rw [toSigned_of_inRange b hb v (h v (List.mem_cons_self _ _)),
      ih (fun x hx => h x (List.mem_cons_of_mem _ hx))]

/-! ## Layout of the output -/

theorem blockHeaders_length (b : Nat) (fuel : Nat) :
    ∀ (rest : List Int) (lastValue : Int), rest.length ≤ fuel →
      (blockHeaders b fuel rest lastValue).length = (rest.length + 127) / 128 := by
  induction fuel with
  | zero =>
    intro rest lastValue h
    have : rest = [] := List.length_eq_zero.mp (by omega)
    subst this
    simp [blockHeaders]
  | succ fuel ih =>
    intro rest lastValue h
    by_cases hne : rest = []
    · subst hne; simp [blockHeaders_nil]
    · have hpos : 0 < rest.length := List.length_pos.mpr hne
      rw [blockHeaders_step _ _ _ _ hne, List.length_cons, ih _ _ (by
        rw [List.length_drop, blockSize_eq]; omega), List.length_drop, blockSize_eq]
      omega

theorem blockShape_default (b : Nat) (block : List Int) (minDelta : Int) :
    BlockShape (minDelta, blockBitWidths b block)
      ([(block.drop (0 * miniBlockSize)).take miniBlockSize,
          (block.drop (1 * miniBlockSize)).take miniBlockSize,
          (block.drop (2 * miniBlockSize)).take miniBlockSize,
          (block.drop (3 * miniBlockSize)).take miniBlockSize].map
            (fun c => miniBlockPackDefault b c (miniBlockBitWidth b c))) := by
  refine ⟨blockBitWidths_length b block, ?_⟩
  rw [blockBitWidths_eq]
  simp only [List.map_cons, List.map_nil]
  refine List.Forall₂.cons (miniBlockPackDefault_length _ _ _)
    (List.Forall₂.cons (miniBlockPackDefault_length _ _ _)
      (List.Forall₂.cons (miniBlockPackDefault_length _ _ _)
        (List.Forall₂.cons (miniBlockPackDefault_length _ _ _) List.Forall₂.nil)))

theorem encodeBlocks_layout (b : Nat) (fuel : Nat) :
    ∀ (rest : List Int) (lastValue : Int),
      ∃ packed : List (List (List Nat)),
        List.Forall₂ BlockShape (blockHeaders b fuel rest lastValue) packed ∧
        encodeBlocks b (miniBlockPackDefault b) fuel [] rest lastValue
          = (List.zipWith renderBlock (blockHeaders b fuel rest lastValue) packed).flatten := by
  induction fuel with
  | zero =>
    intro rest lastValue
    exact ⟨[], by simp [blockHeaders], by simp [encodeBlocks, blockHeaders]⟩
  | succ fuel ih =>
    intro rest lastValue
    by_cases hne : rest = []
    · subst hne
      exact ⟨[], by simp [blockHeaders_nil], by simp [encodeBlocks_nil, blockHeaders_nil]⟩
    · obtain ⟨packed, hshape, heq⟩ := ih (rest.drop blockSize) (blockPrepare b rest lastValue).2.2
      refine ⟨([((blockPrepare b rest lastValue).2.1.drop (0 * miniBlockSize)).take miniBlockSize,
          ((blockPrepare b rest lastValue).2.1.drop (1 * miniBlockSize)).take miniBlockSize,
          ((blockPrepare b rest lastValue).2.1.drop (2 * miniBlockSize)).take miniBlockSize,
          ((blockPrepare b rest lastValue).2.1.drop (3 * miniBlockSize)).take miniBlockSize].map
            (fun c => miniBlockPackDefault b c (miniBlockBitWidth b c))) :: packed, ?_, ?_⟩
      · rw [blockHeaders_step _ _ _ _ hne]
        exact List.Forall₂.cons (blockShape_default b _ _) hshape
      · rw [blockHeaders_step _ _ _ _ hne, encodeBlocks_step _ _ _ _ _ hne, heq,
          packMiniBlocks_default]
        simp [renderBlock]

theorem encodeWith_layout (b : Nat) (dst : List Nat) (src : List Int) (h : 2 ≤ src.length) :
    (blockHeaders b src.length (src.drop 1) (src.headD 0)).length
        = (src.length - 1 + 127) / 128 ∧
      ∃ packed : List (List (List Nat)),
        List.Forall₂ BlockShape (blockHeaders b src.length (src.drop 1) (src.headD 0)) packed ∧
        encodeWith b (miniBlockPackDefault b) dst src
          = dst ++ encodeBinaryPackedHeader blockSize numMiniBlocks src.length (src.headD 0)
            ++ (List.zipWith renderBlock
                (blockHeaders b src.length (src.drop 1) (src.headD 0)) packed).flatten := by
  refine ⟨?_, ?_⟩
  · rw [blockHeaders_length _ _ _ _ (by simp), List.length_drop]
  · obtain ⟨packed, hshape, heq⟩ := encodeBlocks_layout b src.length (src.drop 1) (src.headD 0)
    refine ⟨packed, hshape, ?_⟩
    unfold encodeWith
    simp only []
    rw [if_neg (by omega), encodeBlocks_dst, heq]

theorem encodeWith_short (b : Nat) (pack : List Int → Nat → List Nat) (dst : List Nat)
    (src : List Int) (h : src.length ≤ 1) :
    encodeWith b pack dst src
      = dst ++ encodeBinaryPackedHeader blockSize numMiniBlocks src.length (src.headD 0) := by
  unfold encodeWith
  simp only []
  rw [if_pos (by omega)]

/-! ## The header of one block, explicitly -/

theorem toSigned_zero (b : Nat) (hb : b = 32 ∨ b = 64) : toSigned b 0 = 0 := by
  rcases hb with rfl | rfl <;> decide

theorem toUnsigned_zero (b : Nat) : toUnsigned b 0 = 0 := by
  simp [toUnsigned]

theorem blockDelta_replicate_self (b : Nat) (hb : b = 32 ∨ b = 64) (k : Nat) (v : Int) :
    (blockDelta b (List.replicate k v) v).1 = List.replicate k 0 := by
  induction k with
  | zero => rfl
  | succ k ih =>
    simp only [List.replicate_succ, blockDelta, ih, sub_self, toSigned_zero b hb]

theorem blockDelta_zeros (b : Nat) (hb : b = 32 ∨ b = 64) (j : Nat) (l : Int) :
    (blockDelta b (List.replicate (j + 1) 0) l).1
      = toSigned b (0 - l) :: List.replicate j 0 := by
  simp only [List.replicate_succ, blockDelta, blockDelta_replicate_self b hb]

theorem blockPrepare_header (b : Nat) (hb : b = 32 ∨ b = 64) (rest : List Int)
    (lastValue : Int) :
    ((blockPrepare b rest lastValue).1, blockBitWidths b (blockPrepare b rest lastValue).2.1)
      = zeroPaddedBlockHeader b (rest.take blockSize) lastValue := by
  simp only [blockPrepare, loadBlock, zeroPaddedBlockHeader, blockClear, blockSub]
  rw [blockDelta_append, blockDelta_last]
  have hle : (List.take blockSize rest).length ≤ blockSize := by
    rw [List.length_take]; omega
  have hpad : (blockDelta b (List.replicate (blockSize - (List.take blockSize rest).length) 0)
        ((List.take blockSize rest).getLastD lastValue)).1
      = if (List.take blockSize rest).length < blockSize then
          toSigned b (0 - (List.take blockSize rest).getLastD lastValue)
            :: List.replicate (blockSize - (List.take blockSize rest).length - 1) 0
        else [] := by
    split
    · rename_i h
      obtain ⟨j, hj⟩ : ∃ j, blockSize - (List.take blockSize rest).length = j + 1 :=
        ⟨blockSize - (List.take blockSize rest).length - 1, by omega⟩
      rw [hj, blockDelta_zeros b hb]
      simp
    · rename_i h
      have : blockSize - (List.take blockSize rest).length = 0 := by omega
      rw [this]; rfl
  rw [hpad]
  generalize hm : blockMin _ = m
  congr 2
  rw [List.map_append]
  have hA : ((blockDelta b (List.take blockSize rest) lastValue).1.map
      (fun v => toSigned b (v - m))).length = (List.take blockSize rest).length := by
    rw [List.length_map, blockDelta_length]
  rw [← hA, List.take_left, hA]
  congr 2
  rw [List.length_append, hA, List.length_map]
  split
  · simp only [List.length_cons, List.length_replicate]; omega
  · simp only [List.length_nil]; omega

/-! ## The headers of all blocks -/

theorem getLastD_take_eq_getD (rest : List Int) (d : Int) (n : Nat) (h : n + 1 ≤ rest.length) :
    (rest.take (n + 1)).getLastD d = rest.getD n 0 := by
  induction rest generalizing n d with
  | nil => simp at h
  | cons a as ih =>
    cases n with
    | zero => simp [List.getLastD]
    | succ n =>
      have h2 : n + 1 ≤ as.length := by simpa using h
      have := ih a n h2
      rw [List.take_succ_cons]
      cases as with
      | nil => simp at h2
      | cons c cs =>
        rw [List.take_succ_cons] at this ⊢
        simp only [List.getLastD_cons] at this ⊢
        rw [this]
        simp

theorem blockHeaders_getD (b : Nat) (hb : b = 32 ∨ b = 64) (k : Nat) :
    ∀ (fuel : Nat) (rest : List Int) (lastValue : Int), rest.length ≤ fuel →
      blockSize * k < rest.length →
      (blockHeaders b fuel rest lastValue).getD k (0, [])
        = zeroPaddedBlockHeader b ((rest.drop (blockSize * k)).take blockSize)
            ((lastValue :: rest).getD (blockSize * k) 0) := by
  induction k with
  | zero =>
    intro fuel rest lastValue hf hk
    have hne : rest ≠ [] := by
      intro h; subst h; simp at hk
    obtain ⟨f, rfl⟩ : ∃ f, fuel = f + 1 := ⟨fuel - 1, by
      have := List.length_pos.mpr hne; omega⟩
    rw [blockHeaders_step _ _ _ _ hne]
    simp only [List.getD_cons_zero, Nat.mul_zero, List.drop_zero]
    exact blockPrepare_header b hb rest lastValue
  | succ k ih =>
    intro fuel rest lastValue hf hk
    rw [blockSize_eq] at hk
    have hne : rest ≠ [] := by
      intro h; subst h; simp at hk
    obtain ⟨f, rfl⟩ : ∃ f, fuel = f + 1 := ⟨fuel - 1, by
      have := List.length_pos.mpr hne; omega⟩
    rw [blockHeaders_step _ _ _ _ hne, List.getD_cons_succ]
    have hlen2 : (rest.drop blockSize).length = rest.length - 128 := by
      rw [List.length_drop, blockSize_eq]
    rw [ih f (rest.drop blockSize) _ (by rw [hlen2]; omega)
      (by rw [hlen2, blockSize_eq]; omega)]
    have hlast : (blockPrepare b rest lastValue).2.2 = rest.getD 127 0 := by
      rw [blockPrepare_last b rest lastValue (by rw [blockSize_eq]; omega), blockSize_eq]
      exact getLastD_take_eq_getD rest lastValue 127 (by omega)
    have e1 : List.drop (blockSize * k) (List.drop blockSize rest)
        = List.drop (blockSize * (k + 1)) rest := by
      rw [List.drop_drop]; congr 1; rw [blockSize_eq]; omega
    have e2 : ((blockPrepare b rest lastValue).2.2 :: List.drop blockSize rest).getD
          (blockSize * k) 0
        = (lastValue :: rest).getD (blockSize * (k + 1)) 0 := by
      rw [hlast, blockSize_eq]
      have e3 : 128 * (k + 1) = (128 * k + 127) + 1 := by omega
      rw [e3, List.getD_cons_succ]
      cases k with
      | zero => simp
      | succ k =>
        have e4 : 128 * (k + 1) = (128 * k + 127) + 1 := by omega
        rw [e4, List.getD_cons_succ]
        simp only [List.getD_eq_getElem?_getD, List.getElem?_drop]
        congr 2
        omega
    rw [e1, e2]

/-! ## Identical values -/

theorem foldl_min_zero (l : List Int) (m : Int) (hm : 0 ≤ m) (hl : ∀ d ∈ l, 0 ≤ d)
    (h0 : m = 0 ∨ (0 : Int) ∈ l) :
    l.foldl (fun m x => if x < m then x else m) m = 0 := by
  induction l generalizing m with
  | nil =>
    rcases h0 with h | h
    · simpa using h
    · simp at h
  | cons a l ih =>
    simp only [List.foldl_cons]
    have ha : 0 ≤ a := hl a (List.mem_cons_self _ _)
    apply ih
    · split <;> assumption
    · exact fun d hd => hl d (List.mem_cons_of_mem _ hd)
    · rcases h0 with h | h
      · subst h
        left
        split <;> omega
      · rcases List.mem_cons.mp h with h | h
        · left
          subst h
          split <;> omega
        · right; exact h

theorem blockMin_zero (l : List Int) (hl : ∀ d ∈ l, 0 ≤ d) (h0 : (0 : Int) ∈ l) :
    blockMin l = 0 := by
  cases l with
  | nil => rfl
  | cons a l =>
    unfold blockMin
    apply foldl_min_zero l a (hl a (List.mem_cons_self _ _))
      (fun d hd => hl d (List.mem_cons_of_mem _ hd))
    rcases List.mem_cons.mp h0 with h | h
    · left; exact h.symm
    · right; exact h

theorem blockBitWidths_zeros (b : Nat) :
    blockBitWidths b (List.replicate blockSize 0) = [0, 0, 0, 0] := by
  rw [blockBitWidths_eq]
  have hc : ∀ i, i < 4 →
      ((List.replicate blockSize (0 : Int)).drop (i * miniBlockSize)).take miniBlockSize
        = List.replicate 32 0 := by
    intro i hi
    rw [List.drop_replicate, List.take_replicate, miniBlockSize_eq, blockSize_eq]
    congr 1
    omega
  have hw : miniBlockBitWidth b (List.replicate 32 0) = 0 := by
    unfold miniBlockBitWidth
    generalize (32 : Nat) = n
    induction n with
    | zero => rfl
    | succ n ih =>
      simp only [List.replicate_succ, List.foldl_cons, toUnsigned_zero, bitsLen_zero]
      simpa using ih
  rw [hc 0 (by omega), hc 1 (by omega), hc 2 (by omega), hc 3 (by omega), hw]

/-- The condition under which a block of identical values `v` records
minimum delta 0: the block is full, or `v` is non-positive and not the
smallest value of the type. -/
theorem zeroPadded_identical (b : Nat) (hb : b = 32 ∨ b = 64) (k : Nat) (v : Int)
    (hk : 1 ≤ k) (hk2 : k ≤ blockSize)
    (hc : k = blockSize ∨ (-((2 ^ (b - 1) : Nat) : Int) < v ∧ v ≤ 0)) :
    zeroPaddedBlockHeader b (List.replicate k v) v = (0, [0, 0, 0, 0]) := by
  unfold zeroPaddedBlockHeader
  simp only [blockDelta_replicate_self b hb, List.length_replicate]
  have hmin : blockMin (List.replicate k (0 : Int) ++
      if k < blockSize then
        toSigned b (0 - (List.replicate k v).getLastD v)
          :: List.replicate (blockSize - k - 1) 0
      else []) = 0 := by
    apply blockMin_zero
    · intro d hd
      rcases List.mem_append.mp hd with h | h
      · rw [List.eq_of_mem_replicate h]
      · split at h
        · rename_i hlt
          have hv : -((2 ^ (b - 1) : Nat) : Int) < v ∧ v ≤ 0 := by
            rcases hc with h1 | h1
            · omega
            · exact h1
          have hlast : (List.replicate k v).getLastD v = v := by
            cases k with
            | zero => rfl
            | succ k =>
              rw [List.getLastD_eq_getLast?, List.getLast?_replicate]
              simp
          rcases List.mem_cons.mp h with h | h
          · rw [h, hlast]
            have hr : InRange b (0 - v) := by
              unfold InRange
              rcases hb with rfl | rfl <;> norm_num at * <;> omega
            rw [toSigned_of_inRange b hb _ hr]
            omega
          · rw [List.eq_of_mem_replicate h]
        · simp at h
    · apply List.mem_append_left
      exact List.mem_replicate.mpr ⟨by omega, rfl⟩
  rw [hmin]
  have hz : (List.replicate k (0 : Int)).map (fun d => toSigned b (d - 0))
      = List.replicate k 0 := by
    rw [List.map_replicate]
    simp [toSigned_zero b hb]
  rw [hz, ← List.replicate_add]
  have : k + (blockSize - k) = blockSize := by omega
  rw [this, blockBitWidths_zeros]

theorem blockHeaders_identical (b : Nat) (hb : b = 32 ∨ b = 64) (v : Int) (fuel : Nat) :
    ∀ (k : Nat), k ≤ fuel →
      (k % blockSize = 0 ∨ (-((2 ^ (b - 1) : Nat) : Int) < v ∧ v ≤ 0)) →
      blockHeaders b fuel (List.replicate k v) v
        = List.replicate ((k + 127) / 128) (0, [0, 0, 0, 0]) := by
  induction fuel with
  | zero =>
    intro k hk _
    have : k = 0 := by omega
    subst this
    simp [blockHeaders]
  | succ fuel ih =>
    intro k hk hc
    by_cases hk0 : k = 0
    · subst hk0; simp [blockHeaders_nil]
    · have hne : List.replicate k v ≠ [] := by
        intro h
        have := congrArg List.length h
        simp at this
        exact hk0 this
      rw [blockHeaders_step _ _ _ _ hne, blockPrepare_header b hb, List.take_replicate,
        zeroPadded_identical b hb (min blockSize k) v (by rw [blockSize_eq]; omega)
          (Nat.min_le_left _ _) (by
            rcases hc with h | h
            · left
              rw [blockSize_eq] at h ⊢
              omega
            · right; exact h),
        List.drop_replicate]
      by_cases hle : k ≤ 128
      · have e0 : k - blockSize = 0 := by rw [blockSize_eq]; omega
        have e1 : (k + 127) / 128 = 1 := by omega
        rw [e0, e1]
        simp [blockHeaders_nil]
      · have hlast : (blockPrepare b (List.replicate k v) v).2.2 = v := by
          rw [blockPrepare_last b _ v (by simp [blockSize_eq]; omega), List.take_replicate]
          have hm : min blockSize k = 127 + 1 := by rw [blockSize_eq]; omega
          rw [hm, List.getLastD_eq_getLast?, List.getLast?_replicate]
          simp
        rw [hlast, ih (k - blockSize) (by rw [blockSize_eq]; omega) (by
          rcases hc with h | h
          · left
            rw [blockSize_eq] at h ⊢
            omega
          · right; exact h)]
        have e1 : (k + 127) / 128 = (k - blockSize + 127) / 128 + 1 := by
          rw [blockSize_eq]; omega
        rw [e1, List.replicate_succ]

theorem blockShape_zero_flatten (m : Int) (packed : List (List Nat))
    (h : BlockShape (m, [0, 0, 0, 0]) packed) : packed.flatten = [] := by
  obtain ⟨_, h⟩ := h
  simp only [] at h
  match packed, h with
  | [p0, p1, p2, p3], h =>
    simp only [List.forall₂_cons, List.Forall₂.nil, and_true, Nat.mul_zero,
      Nat.zero_div, List.length_eq_zero] at h
    obtain ⟨h0, h1, h2, h3⟩ := h
    subst h0 h1 h2 h3
    rfl

theorem zipWith_render_zero (n : Nat) (packed : List (List (List Nat)))
    (h : List.Forall₂ BlockShape (List.replicate n ((0 : Int), [0, 0, 0, 0])) packed) :
    (List.zipWith renderBlock (List.replicate n ((0 : Int), [0, 0, 0, 0])) packed).flatten
      = (List.replicate n (encodeBlockHeader 0 [0, 0, 0, 0])).flatten := by
  induction n generalizing packed with
  | zero =>
    cases packed <;> simp
  | succ n ih =>
    rw [List.replicate_succ] at h ⊢
    cases h with
    | cons h1 h2 =>
      rw [List.zipWith_cons_cons, List.flatten_cons, ih _ h2, List.replicate_succ,
        List.flatten_cons]
      simp only [renderBlock, blockShape_zero_flatten 0 _ h1, List.append_nil]

theorem encodeWith_identical (b : Nat) (hb : b = 32 ∨ b = 64) (dst : List Nat) (v : Int)
    (n : Nat) (hn : 2 ≤ n)
    (hc : (n - 1) % blockSize = 0 ∨ (-((2 ^ (b - 1) : Nat) : Int) < v ∧ v ≤ 0)) :
    blockHeaders b n ((List.replicate n v).drop 1) ((List.replicate n v).headD 0)
        = List.replicate ((n - 1 + 127) / 128) (0, [0, 0, 0, 0]) ∧
      encodeWith b (miniBlockPackDefault b) dst (List.replicate n v)
        = dst ++ encodeBinaryPackedHeader blockSize numMiniBlocks n v
          ++ (List.replicate ((n - 1 + 127) / 128) (encodeBlockHeader 0 [0, 0, 0, 0])).flatten := by
  obtain ⟨k, rfl⟩ : ∃ k, n = k + 1 := ⟨n - 1, by omega⟩
  have hd : (List.replicate (k + 1) v).drop 1 = List.replicate k v := by
    simp [List.replicate_succ]
  have hh : (List.replicate (k + 1) v).headD 0 = v := by
    simp [List.replicate_succ]
  have hheaders := blockHeaders_identical b hb v (k + 1) k (by omega) (by simpa using hc)
  refine ⟨by rw [hd, hh]; simpa using hheaders, ?_⟩
  obtain ⟨_, packed, hshape, heq⟩ :=
    encodeWith_layout b dst (List.replicate (k + 1) v) (by simpa using hn)
  rw [List.length_replicate, hd, hh, hheaders] at hshape heq
  rw [heq, zipWith_render_zero _ _ hshape]
  simp

theorem blockHeaders_getD_src (b : Nat) (hb : b = 32 ∨ b = 64) (src : List Int) (k : Nat)
    (hn : 2 ≤ src.length) (hk : k < (src.length - 1 + 127) / 128) :
    (blockHeaders b src.length (src.drop 1) (src.headD 0)).getD k (0, [])
      = zeroPaddedBlockHeader b (blockValues src k) (blockPrev src k) := by
  match src, hn with
  | x :: rest, hn =>
    simp only [List.length_cons, Nat.add_sub_cancel] at hk
    rw [blockHeaders_getD b hb k _ _ _ (by simp) (by
      simp only [List.drop_succ_cons, List.drop_zero, blockSize_eq]; omega)]
    simp only [blockValues, blockPrev, List.drop_succ_cons, List.drop_zero, List.headD_cons,
      List.drop_drop]
    rw [Nat.add_comm 1 (blockSize * k), List.drop_succ_cons]

theorem zeroPadded_eq_real (b : Nat) (vals : List Int) (prev : Int)
    (h : vals.length = blockSize) :
    zeroPaddedBlockHeader b vals prev = realBlockHeader b vals prev := by
  unfold zeroPaddedBlockHeader realBlockHeader
  simp only [h, lt_irrefl, if_false, List.append_nil]

/-! ## The scalar reference encoder where the padding makes no difference -/

theorem blockPrepare_full (b : Nat) (rest : List Int) (lastValue : Int)
    (h : blockSize ≤ rest.length) :
    (blockPrepare b rest lastValue).1
        = blockMin (blockDelta b (rest.take blockSize) lastValue).1 ∧
      (blockPrepare b rest lastValue).2.1
        = (blockDelta b (rest.take blockSize) lastValue).1.map
            (fun d => toSigned b
              (d - blockMin (blockDelta b (rest.take blockSize) lastValue).1)) := by
  have hl : (rest.take blockSize).length = blockSize := by
    rw [List.length_take]; omega
  simp only [blockPrepare, loadBlock, blockClear, blockSub, hl, Nat.sub_self,
    List.replicate_zero, List.append_nil, List.length_map, blockDelta_length]
  refine ⟨trivial, ?_⟩
  apply List.take_of_length_le
  rw [List.length_map, blockDelta_length, hl]

theorem padWithLast_full (vals : List Int) (lastValue : Int) (h : vals.length = blockSize) :
    padWithLast vals lastValue = vals := by
  simp [padWithLast, h]

theorem blockPrepare_block (b : Nat) (rest : List Int)
    (lastValue : Int) :
    (blockPrepare b rest lastValue).2.1
      = (blockDelta b (rest.take blockSize) lastValue).1.map
          (fun d => toSigned b (d - (blockPrepare b rest lastValue).1))
        ++ List.replicate (blockSize - (rest.take blockSize).length) 0 := by
  have hle : (List.take blockSize rest).length ≤ blockSize := by
    rw [List.length_take]; omega
  simp only [blockPrepare, loadBlock, blockClear, blockSub]
  rw [blockDelta_append]
  generalize hm : blockMin _ = m
  rw [List.map_append]
  have hA : ((blockDelta b (List.take blockSize rest) lastValue).1.map
      (fun v => toSigned b (v - m))).length = (List.take blockSize rest).length := by
    rw [List.length_map, blockDelta_length]
  rw [← hA, List.take_left, hA]
  congr 2
  rw [List.length_append, hA, List.length_map, blockDelta_length, List.length_replicate]
  omega

theorem scalar_deltas (b : Nat) (hb : b = 32 ∨ b = 64) (vals : List Int) (lastValue : Int) :
    (blockDelta b (padWithLast vals lastValue) lastValue).1
      = (blockDelta b vals lastValue).1 ++ List.replicate (blockSize - vals.length) 0 := by
  unfold padWithLast
  rw [blockDelta_append, blockDelta_last, blockDelta_replicate_self b hb]

theorem blockPrepare_neutral (b : Nat) (hb : b = 32 ∨ b = 64) (rest : List Int)
    (lastValue : Int) (hlt : rest.length < blockSize)
    (hN : PaddingNeutral b (rest.take blockSize) lastValue) :
    (blockPrepare b rest lastValue).1
        = blockMin (blockDelta b (padWithLast (rest.take blockSize) lastValue) lastValue).1 ∧
      (blockPrepare b rest lastValue).2.1
        = (blockDelta b (padWithLast (rest.take blockSize) lastValue) lastValue).1.map
            (fun d => toSigned b (d - blockMin
              (blockDelta b (padWithLast (rest.take blockSize) lastValue) lastValue).1)) := by
  have hl : (rest.take blockSize).length < blockSize := by
    rw [List.length_take]; omega
  obtain ⟨hD, hL, h0⟩ := hN
  have hs : blockMin (blockDelta b (padWithLast (rest.take blockSize) lastValue) lastValue).1
      = 0 := by
    rw [scalar_deltas b hb]
    apply blockMin_zero
    · intro d hd
      rcases List.mem_append.mp hd with hd | hd
      · exact hD d hd
      · rw [List.eq_of_mem_replicate hd]
    · apply List.mem_append_right
      rw [List.mem_replicate]
      exact ⟨by omega, rfl⟩
  have ha : (blockPrepare b rest lastValue).1 = 0 := by
    have h := congrArg Prod.fst (blockPrepare_header b hb rest lastValue)
    simp only [zeroPaddedBlockHeader, if_pos hl] at h
    rw [h]
    apply blockMin_zero
    · intro d hd
      rcases List.mem_append.mp hd with hd | hd
      · exact hD d hd
      · rcases List.mem_cons.mp hd with hd | hd
        · rw [hd]; exact hL
        · rw [List.eq_of_mem_replicate hd]
    · rcases h0 with h0 | h0 | h0
      · exact List.mem_append_left _ h0
      · apply List.mem_append_right
        rw [h0]
        exact List.mem_cons_self _ _
      · apply List.mem_append_right
        apply List.mem_cons_of_mem
        rw [List.mem_replicate]
        exact ⟨by omega, rfl⟩
  refine ⟨by rw [ha, hs], ?_⟩
  rw [blockPrepare_block b, ha, hs, scalar_deltas b hb, List.map_append, List.map_replicate,
    sub_self, toSigned_zero b hb]

theorem block_bytes_eq_scalarBlock (b : Nat) (rest : List Int) (lastValue : Int)
    (h1 : (blockPrepare b rest lastValue).1
        = blockMin (blockDelta b (padWithLast (rest.take blockSize) lastValue) lastValue).1)
    (h2 : (blockPrepare b rest lastValue).2.1
        = (blockDelta b (padWithLast (rest.take blockSize) lastValue) lastValue).1.map
            (fun d => toSigned b (d - blockMin
              (blockDelta b (padWithLast (rest.take blockSize) lastValue) lastValue).1))) :
    encodeBlockHeader (blockPrepare b rest lastValue).1
        (blockBitWidths b (blockPrepare b rest lastValue).2.1)
      ++ packMiniBlocks (miniBlockPackDefault b) (blockPrepare b rest lastValue).2.1 0
          (blockBitWidths b (blockPrepare b rest lastValue).2.1) []
      = scalarBlock b (rest.take blockSize) lastValue := by
  rw [packMiniBlocks_default, h1, h2]
  unfold scalarBlock
  congr 1
  have hz : ∀ c : List Int,
      (if miniBlockBitWidth b c = 0 then []
        else miniBlockPackDefault b c (miniBlockBitWidth b c))
        = miniBlockPackDefault b c (miniBlockBitWidth b c) := by
    intro c
    split
    · rename_i h0
      rw [h0, miniBlockPackDefault_zero]
    · rfl
  simp only [hz, List.flatMap, List.flatten]

theorem blockPrepare_full_scalar (b : Nat) (rest : List Int) (lastValue : Int)
    (h : blockSize ≤ rest.length) :
    (blockPrepare b rest lastValue).1
        = blockMin (blockDelta b (padWithLast (rest.take blockSize) lastValue) lastValue).1 ∧
      (blockPrepare b rest lastValue).2.1
        = (blockDelta b (padWithLast (rest.take blockSize) lastValue) lastValue).1.map
            (fun d => toSigned b (d - blockMin
              (blockDelta b (padWithLast (rest.take blockSize) lastValue) lastValue).1)) := by
  have hl : (rest.take blockSize).length = blockSize := by
    rw [List.length_take]; omega
  rw [padWithLast_full _ lastValue hl]
  exact blockPrepare_full b rest lastValue h

theorem getD_carry (rest : List Int) (lastValue : Int) (k : Nat) :
    (rest.getD 127 0 :: rest.drop 128).getD (128 * k) 0
      = (lastValue :: rest).getD (128 * (k + 1)) 0 := by
  have e3 : 128 * (k + 1) = (128 * k + 127) + 1 := by omega
  rw [e3, List.getD_cons_succ]
  cases k with
  | zero => simp
  | succ k =>
    have e4 : 128 * (k + 1) = (128 * k + 127) + 1 := by omega
    rw [e4, List.getD_cons_succ]
    simp only [List.getD_eq_getElem?_getD, List.getElem?_drop]
    congr 2
    omega

theorem scalarBlocks_nil (b : Nat) (fuel : Nat) (lastValue : Int) :
    scalarBlocks b fuel [] lastValue = [] := by
  cases fuel <;> simp [scalarBlocks]

theorem encodeBlocks_eq_scalarBlocks (b : Nat) (hb : b = 32 ∨ b = 64) (fuel : Nat) :
    ∀ (rest : List Int) (lastValue : Int),
      (rest.length % 128 = 0 ∨
        PaddingNeutral b ((rest.drop (128 * (rest.length / 128))).take blockSize)
          ((lastValue :: rest).getD (128 * (rest.length / 128)) 0)) →
      encodeBlocks b (miniBlockPackDefault b) fuel [] rest lastValue
        = scalarBlocks b fuel rest lastValue := by
  induction fuel with
  | zero => intro rest lastValue _; rfl
  | succ fuel ih =>
    intro rest lastValue hm
    by_cases hne : rest = []
    · subst hne; simp [encodeBlocks_nil, scalarBlocks]
    · have hpos : 0 < rest.length := List.length_pos.mpr hne
      rw [encodeBlocks_step _ _ _ _ _ hne, scalarBlocks, if_neg hne]
      by_cases hge : blockSize ≤ rest.length
      · obtain ⟨h1, h2⟩ := blockPrepare_full_scalar b rest lastValue hge
        rw [block_bytes_eq_scalarBlock b rest lastValue h1 h2,
          blockPrepare_last b rest lastValue hge]
        congr 1
        apply ih
        rw [blockSize_eq] at hge
        have hlen : (rest.drop blockSize).length = rest.length - 128 := by
          rw [List.length_drop, blockSize_eq]
        have hdiv : rest.length / 128 = (rest.length - 128) / 128 + 1 := by omega
        rcases hm with hm | hm
        · left; rw [hlen]; omega
        · right
          rw [hlen]
          rw [hdiv] at hm
          have e1 : List.drop (128 * ((rest.length - 128) / 128)) (List.drop blockSize rest)
              = List.drop (128 * ((rest.length - 128) / 128 + 1)) rest := by
            rw [List.drop_drop]; congr 1; rw [blockSize_eq]; omega
          have hlast : (rest.take blockSize).getLastD lastValue = rest.getD 127 0 := by
            rw [blockSize_eq]
            exact getLastD_take_eq_getD rest lastValue 127 (by omega)
          rw [e1, hlast, blockSize_eq, getD_carry rest lastValue]
          rw [blockSize_eq] at hm
          exact hm
      · have hlt : rest.length < blockSize := by omega
        rw [blockSize_eq] at hlt
        have hdiv : rest.length / 128 = 0 := by omega
        have hN : PaddingNeutral b (rest.take blockSize) lastValue := by
          rcases hm with hm | hm
          · omega
          · rw [hdiv] at hm
            simpa using hm
        obtain ⟨h1, h2⟩ := blockPrepare_neutral b hb rest lastValue (by rw [blockSize_eq]; exact hlt) hN
        rw [block_bytes_eq_scalarBlock b rest lastValue h1 h2]
        have hd : rest.drop blockSize = [] := by
          apply List.drop_eq_nil_of_le; rw [blockSize_eq]; omega
        rw [hd, encodeBlocks_nil, scalarBlocks_nil]

theorem encodeWith_default_eq_scalar (b : Nat) (hb : b = 32 ∨ b = 64) (dst : List Nat)
    (src : List Int)
    (h : src.length < 2 ∨ (src.length - 1) % 128 = 0 ∨
      PaddingNeutral b (blockValues src ((src.length - 1) / 128))
        (blockPrev src ((src.length - 1) / 128))) :
    encodeWith b (miniBlockPackDefault b) dst src = encodeScalar b dst src := by
  unfold encodeWith encodeScalar
  simp only []
  by_cases hlt : src.length < 2
  · rw [if_pos hlt, if_pos hlt, List.append_nil]
  · rw [if_neg hlt, if_neg hlt, encodeBlocks_dst,
      encodeBlocks_eq_scalarBlocks b hb _ _ _ (by
        rw [List.length_drop]
        rcases h with h | h | h
        · omega
        · left; exact h
        · right
          cases src with
          | nil => simp at hlt
          | cons a t =>
            simp only [blockValues, blockPrev, List.length_cons, Nat.add_sub_cancel,
              blockSize_eq] at h
            simp only [List.drop_succ_cons, List.drop_zero, List.headD_cons, List.length_cons,
              Nat.add_sub_cancel]
            rw [Nat.add_comm 1, List.drop_succ_cons] at h
            exact h)]

/-! ## The claims -/

/-- C1: for every sequence of 32-bit values and every sequence of 64-bit
values (lengths within the range of a slice length), decoding the bytes
written by `encodeInt32AVX2` / `encodeInt64AVX2` succeeds, consumes all the
bytes and yields exactly the original sequence: same length, values and
order, nothing of the padding of the last block. -/
theorem decode_encode_roundtrip (src32 src64 buf : List Int)
    (h32 : ∀ v ∈ src32, InRange 32 v) (h64 : ∀ v ∈ src64, InRange 64 v)
    (hn32 : src32.length < 2 ^ 64) (hn64 : src64.length < 2 ^ 64) :
    int32Buffer.decode buf (encodeInt32AVX2 [] src32) = some (buf ++ src32, []) ∧
      BinaryPackedEncoding.decode (encodeInt64AVX2 [] src64) = some (src64, []) := by
  refine ⟨?_, ?_⟩
  · obtain ⟨values, hdec, hmap, _⟩ :=
      decode_encodeWith_default 32 (Or.inl rfl) src32 h32 hn32 []
    rw [List.append_nil] at hdec
    rw [int32Buffer.decode, encodeInt32AVX2_eq_default, hdec]
    simp only [hmap]
  · obtain ⟨values, hdec, hmap, hr⟩ :=
      decode_encodeWith_default 64 (Or.inr rfl) src64 h64 hn64 []
    rw [List.append_nil] at hdec
    rw [encodeInt64AVX2_eq_default, hdec]
    rw [map_toSigned_of_inRange 64 (Or.inr rfl) values hr] at hmap
    rw [hmap]

/-- Witness of C1: values at both ends of the ranges, deltas that overflow. -/
theorem decode_encode_roundtrip_witness :
    int32Buffer.decode [] (encodeInt32AVX2 [] [0, 5, 10, -2147483648, 2147483647, 7, 7])
        = some ([] ++ [0, 5, 10, -2147483648, 2147483647, 7, 7], []) ∧
      BinaryPackedEncoding.decode
          (encodeInt64AVX2 [] [-9223372036854775808, 9223372036854775807, 0])
        = some ([-9223372036854775808, 9223372036854775807, 0], []) :=
  decode_encode_roundtrip [0, 5, 10, -2147483648, 2147483647, 7, 7]
    [-9223372036854775808, 9223372036854775807, 0] [] (by decide) (by decide) (by decide)
    (by decide)

/-- C2: for an input of length 0 or 1 the encoders return `dst` followed by
the header only (block size 128, mini-block count 4, total value count
`len(src)`, first value `src[0]` or 0), and no block is written. -/
theorem encode_short_header_only (dst : List Nat) (src : List Int) (h : src.length ≤ 1) :
    encodeInt32AVX2 dst src
        = dst ++ encodeBinaryPackedHeader 128 4 src.length (src.headD 0) ∧
      encodeInt64AVX2 dst src
        = dst ++ encodeBinaryPackedHeader 128 4 src.length (src.headD 0) ∧
      blockHeadersInt32 src = [] ∧ blockHeadersInt64 src = [] := by
  refine ⟨encodeWith_short 32 _ dst src h, encodeWith_short 64 _ dst src h, ?_, ?_⟩
  · rw [blockHeadersInt32, if_pos (by omega)]
  · rw [blockHeadersInt64, if_pos (by omega)]

/-- Witness of C2: a single value appended to a non-empty destination. -/
theorem encode_short_header_only_witness :
    encodeInt32AVX2 [9] [-3] = [9] ++ encodeBinaryPackedHeader 128 4 [-3].length ([-3].headD 0) ∧
      encodeInt64AVX2 [9] [-3]
        = [9] ++ encodeBinaryPackedHeader 128 4 [-3].length ([-3].headD 0) ∧
      blockHeadersInt32 [-3] = [] ∧ blockHeadersInt64 [-3] = [] :=
  encode_short_header_only [9] [-3] (by decide)

/-- C10: for an input of `n >= 2` values the output keeps `dst` as its
beginning, then holds the header and exactly `ceil((n-1)/128)` blocks; each
block is a block header with the minimum delta and the 4 bit widths computed
by the loop, followed for each mini-block in order by `32*w/8` packed bytes
(none when `w = 0`).  The packer is not called with bit width 0: the output
does not depend on what the packer returns there. -/
theorem encode_layout (dst : List Nat) (src : List Int) (h : 2 ≤ src.length) :
    ((blockHeadersInt32 src).length = (src.length - 1 + 127) / 128 ∧
      (∃ packed : List (List (List Nat)),
        List.Forall₂ BlockShape (blockHeadersInt32 src) packed ∧
        encodeInt32AVX2 dst src
          = dst ++ encodeBinaryPackedHeader 128 4 src.length (src.headD 0)
            ++ (List.zipWith renderBlock (blockHeadersInt32 src) packed).flatten) ∧
      (∀ pack : List Int → Nat → List Nat,
        (∀ c w, w ≠ 0 → pack c w = miniBlockPackInt32AVX2 c w) →
        encodeWith 32 pack dst src = encodeInt32AVX2 dst src)) ∧
    ((blockHeadersInt64 src).length = (src.length - 1 + 127) / 128 ∧
      (∃ packed : List (List (List Nat)),
        List.Forall₂ BlockShape (blockHeadersInt64 src) packed ∧
        encodeInt64AVX2 dst src
          = dst ++ encodeBinaryPackedHeader 128 4 src.length (src.headD 0)
            ++ (List.zipWith renderBlock (blockHeadersInt64 src) packed).flatten) ∧
      (∀ pack : List Int → Nat → List Nat,
        (∀ c w, w ≠ 0 → pack c w = miniBlockPackInt64AVX2 c w) →
        encodeWith 64 pack dst src = encodeInt64AVX2 dst src)) := by
  have h32 := encodeWith_layout 32 dst src h
  have h64 := encodeWith_layout 64 dst src h
  have e32 : blockHeadersInt32 src = blockHeaders 32 src.length (src.drop 1) (src.headD 0) := by
    rw [blockHeadersInt32, if_neg (by omega)]
  have e64 : blockHeadersInt64 src = blockHeaders 64 src.length (src.drop 1) (src.headD 0) := by
    rw [blockHeadersInt64, if_neg (by omega)]
  refine ⟨⟨?_, ?_, ?_⟩, ⟨?_, ?_, ?_⟩⟩
  · rw [e32]; exact h32.1
  · rw [e32, encodeInt32AVX2_eq_default]; exact h32.2
  · intro pack hp
    exact encodeWith_congr 32 (Or.inl rfl) _ _ (fun c w _ hw _ => hp c w hw) dst src
  · rw [e64]; exact h64.1
  · rw [e64, encodeInt64AVX2_eq_default]; exact h64.2
  · intro pack hp
    exact encodeWith_congr 64 (Or.inr rfl) _ _ (fun c w _ hw _ => hp c w hw) dst src

/-- Witness of C10: three values appended to a non-empty destination. -/
theorem encode_layout_witness :
    ((blockHeadersInt32 [0, 5, 10]).length = ([0, 5, 10].length - 1 + 127) / 128 ∧
      (∃ packed : List (List (List Nat)),
        List.Forall₂ BlockShape (blockHeadersInt32 [0, 5, 10]) packed ∧
        encodeInt32AVX2 [9] [0, 5, 10]
          = [9] ++ encodeBinaryPackedHeader 128 4 [0, 5, 10].length ([0, 5, 10].headD 0)
            ++ (List.zipWith renderBlock (blockHeadersInt32 [0, 5, 10]) packed).flatten) ∧
      (∀ pack : List Int → Nat → List Nat,
        (∀ c w, w ≠ 0 → pack c w = miniBlockPackInt32AVX2 c w) →
        encodeWith 32 pack [9] [0, 5, 10] = encodeInt32AVX2 [9] [0, 5, 10])) ∧
    ((blockHeadersInt64 [0, 5, 10]).length = ([0, 5, 10].length - 1 + 127) / 128 ∧
      (∃ packed : List (List (List Nat)),
        List.Forall₂ BlockShape (blockHeadersInt64 [0, 5, 10]) packed ∧
        encodeInt64AVX2 [9] [0, 5, 10]
          = [9] ++ encodeBinaryPackedHeader 128 4 [0, 5, 10].length ([0, 5, 10].headD 0)
            ++ (List.zipWith renderBlock (blockHeadersInt64 [0, 5, 10]) packed).flatten) ∧
      (∀ pack : List Int → Nat → List Nat,
        (∀ c w, w ≠ 0 → pack c w = miniBlockPackInt64AVX2 c w) →
        encodeWith 64 pack [9] [0, 5, 10] = encodeInt64AVX2 [9] [0, 5, 10])) :=
  encode_layout [9] [0, 5, 10] (by decide)

/-- Counterexample to C3 as stated: the two identical values 7, 7 leave the
only block short.  The block records minimum delta -7 and bit width 3 for
its first mini-block, and 12 packed bytes follow the block header. -/
theorem identical_values_counterexample :
    blockHeadersInt32 [7, 7] = [(-7, [3, 0, 0, 0])] ∧
      blockHeadersInt64 [7, 7] = [(-7, [3, 0, 0, 0])] ∧
      encodeInt32AVX2 [] [7, 7]
        = encodeBinaryPackedHeader 128 4 2 7 ++ encodeBlockHeader (-7) [3, 0, 0, 0]
          ++ [7, 0, 0, 0, 0, 0, 0, 0, 0, 0, 0, 0] ∧
      encodeInt32AVX2 [] [7, 7]
        ≠ encodeBinaryPackedHeader 128 4 2 7 ++ encodeBlockHeader 0 [0, 0, 0, 0] := by
  decide

/-- C3, amended: for two or more identical values `v`, when the values after
the first fill whole blocks, or when `v` is non-positive and not the
smallest value of the type, every block records minimum delta 0 and bit
width 0 for each of its 4 mini-blocks, and the output is the header followed
only by block headers. -/
theorem identical_values_zero_width (dst : List Nat) (v : Int) (n : Nat) (hn : 2 ≤ n) :
    ((n - 1) % 128 = 0 ∨ (-2147483648 < v ∧ v ≤ 0) →
      blockHeadersInt32 (List.replicate n v)
          = List.replicate ((n - 1 + 127) / 128) (0, [0, 0, 0, 0]) ∧
        encodeInt32AVX2 dst (List.replicate n v)
          = dst ++ encodeBinaryPackedHeader 128 4 n v
            ++ (List.replicate ((n - 1 + 127) / 128)
                (encodeBlockHeader 0 [0, 0, 0, 0])).flatten) ∧
    ((n - 1) % 128 = 0 ∨ (-9223372036854775808 < v ∧ v ≤ 0) →
      blockHeadersInt64 (List.replicate n v)
          = List.replicate ((n - 1 + 127) / 128) (0, [0, 0, 0, 0]) ∧
        encodeInt64AVX2 dst (List.replicate n v)
          = dst ++ encodeBinaryPackedHeader 128 4 n v
            ++ (List.replicate ((n - 1 + 127) / 128)
                (encodeBlockHeader 0 [0, 0, 0, 0])).flatten) := by
  refine ⟨?_, ?_⟩
  · intro hc
    have h := encodeWith_identical 32 (Or.inl rfl) dst v n hn (by
      rcases hc with h | h
      · left; exact h
      · right; norm_num; exact h)
    rw [blockHeadersInt32, if_neg (by simp; omega), encodeInt32AVX2_eq_default,
      List.length_replicate]
    exact h
  · intro hc
    have h := encodeWith_identical 64 (Or.inr rfl) dst v n hn (by
      rcases hc with h | h
      · left; exact h
      · right; norm_num; exact h)
    rw [blockHeadersInt64, if_neg (by simp; omega), encodeInt64AVX2_eq_default,
      List.length_replicate]
    exact h

/-- Witness of C3, amended: 200 copies of -7 (a full block and a short one),
and 129 copies of 7 (one full block). -/
theorem identical_values_zero_width_witness :
    (blockHeadersInt32 (List.replicate 200 (-7))
          = List.replicate ((200 - 1 + 127) / 128) (0, [0, 0, 0, 0]) ∧
        encodeInt32AVX2 [] (List.replicate 200 (-7))
          = [] ++ encodeBinaryPackedHeader 128 4 200 (-7)
            ++ (List.replicate ((200 - 1 + 127) / 128)
                (encodeBlockHeader 0 [0, 0, 0, 0])).flatten) ∧
    (blockHeadersInt64 (List.replicate 129 7)
          = List.replicate ((129 - 1 + 127) / 128) (0, [0, 0, 0, 0]) ∧
        encodeInt64AVX2 [] (List.replicate 129 7)
          = [] ++ encodeBinaryPackedHeader 128 4 129 7
            ++ (List.replicate ((129 - 1 + 127) / 128)
                (encodeBlockHeader 0 [0, 0, 0, 0])).flatten) :=
  ⟨(identical_values_zero_width [] (-7) 200 (by decide)).1 (Or.inr (by decide)),
    (identical_values_zero_width [] 7 129 (by decide)).2 (Or.inl (by decide))⟩

/-- Counterexample to C9 as stated: for the input 0, 5, 10 the deltas of the
real values are 5 and 5, so the claim expects minimum delta 5 and bit widths
0; the block header written records minimum delta -10 and bit width 4. -/
theorem min_delta_counterexample :
    blockHeadersInt32 [0, 5, 10] = [(-10, [4, 0, 0, 0])] ∧
      blockHeadersInt64 [0, 5, 10] = [(-10, [4, 0, 0, 0])] ∧
      realBlockHeader 32 (blockValues [0, 5, 10] 0) (blockPrev [0, 5, 10] 0)
        = (5, [0, 0, 0, 0]) ∧
      realBlockHeader 64 (blockValues [0, 5, 10] 0) (blockPrev [0, 5, 10] 0)
        = (5, [0, 0, 0, 0]) := by
  decide

/-- C9, amended: for an input of at least two values, the header of block
`k` records the minimum over the deltas of the real values of the block
(the first one against the last value of the previous block, or the first
value) and, when the block holds fewer than 128 real values, over the
deltas of its padding positions, which hold zeros: `0 - last real value`
and 0.  The bit widths are those of the real deltas minus that minimum;
padding positions count as zero.  For a block of 128 real values this is
the minimum of the real deltas. -/
theorem block_header_zero_padded (src : List Int) (k : Nat) (hn : 2 ≤ src.length)
    (hk : k < (src.length - 1 + 127) / 128) :
    ((blockHeadersInt32 src).getD k (0, [])
        = zeroPaddedBlockHeader 32 (blockValues src k) (blockPrev src k) ∧
      ((blockValues src k).length = blockSize →
        (blockHeadersInt32 src).getD k (0, [])
          = realBlockHeader 32 (blockValues src k) (blockPrev src k))) ∧
    ((blockHeadersInt64 src).getD k (0, [])
        = zeroPaddedBlockHeader 64 (blockValues src k) (blockPrev src k) ∧
      ((blockValues src k).length = blockSize →
        (blockHeadersInt64 src).getD k (0, [])
          = realBlockHeader 64 (blockValues src k) (blockPrev src k))) := by
  have h32 := blockHeaders_getD_src 32 (Or.inl rfl) src k hn hk
  have h64 := blockHeaders_getD_src 64 (Or.inr rfl) src k hn hk
  rw [blockHeadersInt32, blockHeadersInt64, if_neg (by omega), if_neg (by omega)]
  refine ⟨⟨h32, ?_⟩, ⟨h64, ?_⟩⟩
  · intro hfull
    rw [h32, zeroPadded_eq_real 32 _ _ hfull]
  · intro hfull
    rw [h64, zeroPadded_eq_real 64 _ _ hfull]

/-- Witness of C9, amended: the only block of the input 0, 5, 10. -/
theorem block_header_zero_padded_witness :
    ((blockHeadersInt32 [0, 5, 10]).getD 0 (0, [])
        = zeroPaddedBlockHeader 32 (blockValues [0, 5, 10] 0) (blockPrev [0, 5, 10] 0) ∧
      ((blockValues [0, 5, 10] 0).length = blockSize →
        (blockHeadersInt32 [0, 5, 10]).getD 0 (0, [])
          = realBlockHeader 32 (blockValues [0, 5, 10] 0) (blockPrev [0, 5, 10] 0))) ∧
    ((blockHeadersInt64 [0, 5, 10]).getD 0 (0, [])
        = zeroPaddedBlockHeader 64 (blockValues [0, 5, 10] 0) (blockPrev [0, 5, 10] 0) ∧
      ((blockValues [0, 5, 10] 0).length = blockSize →
        (blockHeadersInt64 [0, 5, 10]).getD 0 (0, [])
          = realBlockHeader 64 (blockValues [0, 5, 10] 0) (blockPrev [0, 5, 10] 0))) :=
  block_header_zero_padded [0, 5, 10] 0 (by decide) (by decide)

end Delta

namespace VParquet

/-! ## `blockIterator.Next` -/

theorem nextResults_rows (blockID : String) (rows : List Trace) :
    nextResults (rows.length + 1) { blockID := blockID, r := rows.map ReadOutcome.row }
      = rows.map (fun t => (some t, none)) ++ [(none, none)] := by
  induction rows with
  | nil => rfl
  | cons t ts ih =>
    simp only [List.length_cons, List.map_cons, List.cons_append]
    rw [nextResults]
    simp only [blockIterator.Next, Reader.Read]
    rw [ih]

/-- C5: `blockIterator.Next` returns exactly one of three outcomes, decided
by what the reader's `Read` reports: the row and no error when `Read`
returns no error; neither trace nor error when `Read` returns `io.EOF`;
otherwise no trace and the reader's error wrapped in a message that carries
the block identifier.  A trace and an error are never returned together,
and the error returned is never `io.EOF`. -/
theorem blockIterator_Next_outcomes (i : blockIterator) :
    ((∃ t r, i.r.Read Trace.zero = (none, t, r) ∧ (i.Next).1 = (some t, none))
      ∨ (∃ t r, i.r.Read Trace.zero = (some GoError.eof, t, r) ∧ (i.Next).1 = (none, none))
      ∨ (∃ err t r, i.r.Read Trace.zero = (some err, t, r) ∧ err ≠ GoError.eof
          ∧ (i.Next).1
              = (none, some (GoError.wrap err ("error iterating through block " ++ i.blockID)))
          ∧ (GoError.wrap err ("error iterating through block " ++ i.blockID)).Error
              = "error iterating through block " ++ i.blockID ++ ": " ++ err.Error))
    ∧ ¬ ((i.Next).1.1.isSome = true ∧ (i.Next).1.2.isSome = true)
    ∧ (i.Next).1.2 ≠ some GoError.eof
    ∧ ((i.Next).1 = (none, none) ↔ (i.r.Read Trace.zero).1 = some GoError.eof) := by
  obtain ⟨blockID, r⟩ := i
  cases r with
  | nil =>
    refine ⟨Or.inr (Or.inl ⟨_, _, rfl, rfl⟩), ?_, ?_, ?_⟩ <;>
      simp [blockIterator.Next, Reader.Read]
  | cons o rest =>
    cases o with
    | row t =>
      refine ⟨Or.inl ⟨_, _, rfl, rfl⟩, ?_, ?_, ?_⟩ <;>
        simp [blockIterator.Next, Reader.Read]
    | fail err =>
      cases err with
      | eof =>
        refine ⟨Or.inr (Or.inl ⟨_, _, rfl, rfl⟩), ?_, ?_, ?_⟩ <;>
          simp [blockIterator.Next, Reader.Read]
      | other text =>
        refine ⟨Or.inr (Or.inr ⟨_, _, _, rfl, by simp, rfl, ?_⟩), ?_, ?_, ?_⟩ <;>
          simp [blockIterator.Next, Reader.Read, GoError.Error, String.append_assoc]
      | wrap cause message =>
        refine ⟨Or.inr (Or.inr ⟨_, _, _, rfl, by simp, rfl, ?_⟩), ?_, ?_, ?_⟩ <;>
          simp [blockIterator.Next, Reader.Read, GoError.Error, String.append_assoc]

/-- C6: for a sealed block holding `TotalObjects` rows whose reads all
succeed, `Iterator` succeeds and the first `TotalObjects + 1` calls of
`Next` return the rows, each once and in storage order, without error, and
then the end-of-sequence signal `(nil, nil)`, once. -/
theorem iterator_yields_rows_then_end (blockID : String) (rows : List Trace) :
    ∃ it, (sealedBlock blockID rows).Iterator = Except.ok it
      ∧ nextResults ((sealedBlock blockID rows).TotalObjects + 1) it
          = rows.map (fun t => (some t, none)) ++ [(none, none)] :=
  ⟨{ blockID := blockID, r := rows.map ReadOutcome.row }, rfl, nextResults_rows blockID rows⟩

/-! ## Search -/

theorem search_passes_test : TestBackendBlockSearch Search := by decide

theorem anyValueMatches_iff (valueMatch : String → String → String → Bool)
    (key wanted : String) (values : List String) :
    anyValueMatches valueMatch key wanted values = true ↔
      ∃ found ∈ values, valueMatch key found wanted = true := by
  induction values with
  | nil => simp [anyValueMatches]
  | cons v vs ih =>
    simp only [anyValueMatches, Bool.or_eq_true, ih, List.mem_cons, exists_eq_or_imp]

theorem tagsMatch_iff (valueMatch : String → String → String → Bool) (tr : Trace)
    (tags : List (String × String)) :
    tagsMatch valueMatch tr tags = true ↔
      ∀ kv ∈ tags, ∃ found ∈ tagValues kv.1 tr, valueMatch kv.1 found kv.2 = true := by
  induction tags with
  | nil => simp [tagsMatch]
  | cons kv rest ih =>
    simp only [tagsMatch, Bool.and_eq_true, ih, anyValueMatches_iff, List.mem_cons,
      forall_eq_or_imp]

theorem durationMatches_iff (req : SearchRequest) (tr : Trace) :
    durationMatches req tr = true ↔
      (req.MinDurationMs = 0 ∨ req.MinDurationMs ≤ tr.DurationNanos / 1000000)
        ∧ (req.MaxDurationMs = 0 ∨ tr.DurationNanos / 1000000 ≤ req.MaxDurationMs) := by
  simp [durationMatches]

theorem mem_SearchWith (valueMatch : String → String → String → Bool) (rows : List Trace)
    (req : SearchRequest) (s : TraceSearchMetadata) :
    s ∈ SearchWith valueMatch rows req ↔
      ∃ tr ∈ rows, traceSummary tr = s
        ∧ (req.MinDurationMs = 0 ∨ req.MinDurationMs ≤ tr.DurationNanos / 1000000)
        ∧ (req.MaxDurationMs = 0 ∨ tr.DurationNanos / 1000000 ≤ req.MaxDurationMs)
        ∧ ∀ kv ∈ req.Tags, ∃ found ∈ tagValues kv.1 tr,
            valueMatch kv.1 found kv.2 = true := by
  induction rows with
  | nil => simp [SearchWith]
  | cons tr rows ih =>
    rw [SearchWith]
    by_cases hm : (durationMatches req tr && tagsMatch valueMatch tr req.Tags) = true
    · rw [if_pos hm, List.mem_cons, ih]
      have hm2 := hm
      rw [Bool.and_eq_true, durationMatches_iff, tagsMatch_iff] at hm2
      constructor
      · rintro (rfl | ⟨t, ht, h⟩)
        · exact ⟨tr, List.mem_cons_self _ _, rfl, hm2.1.1, hm2.1.2, hm2.2⟩
        · exact ⟨t, List.mem_cons_of_mem _ ht, h⟩
      · rintro ⟨t, ht, h⟩
        rcases List.mem_cons.mp ht with rfl | ht
        · exact Or.inl h.1.symm
        · exact Or.inr ⟨t, ht, h⟩
    · rw [if_neg hm, ih]
      constructor
      · rintro ⟨t, ht, h⟩
        exact ⟨t, List.mem_cons_of_mem _ ht, h⟩
      · rintro ⟨t, ht, h⟩
        rcases List.mem_cons.mp ht with rfl | ht
        · exfalso
          apply hm
          rw [Bool.and_eq_true, durationMatches_iff, tagsMatch_iff]
          exact ⟨⟨h.2.1, h.2.2.1⟩, h.2.2.2⟩
        · exact ⟨t, ht, h⟩

theorem SearchWith_sublist (valueMatch : String → String → String → Bool)
    (rows : List Trace) (req : SearchRequest) :
    List.Sublist (SearchWith valueMatch rows req) (rows.map traceSummary) := by
  induction rows with
  | nil => simp [SearchWith]
  | cons tr rows ih =>
    rw [SearchWith, List.map_cons]
    split
    · exact List.Sublist.cons₂ _ ih
    · exact List.Sublist.cons _ ih

theorem SearchWith_all (valueMatch : String → String → String → Bool) (rows : List Trace)
    (req : SearchRequest)
    (h : ∀ tr ∈ rows, (durationMatches req tr && tagsMatch valueMatch tr req.Tags) = true) :
    SearchWith valueMatch rows req = rows.map traceSummary := by
  induction rows with
  | nil => rfl
  | cons tr rows ih =>
    rw [SearchWith, if_pos (h tr (List.mem_cons_self _ _)), List.map_cons,
      ih (fun t ht => h t (List.mem_cons_of_mem _ ht))]

/-! ## Point lookup -/

theorem buildBlock_ok (s s2 : StreamingBlock) (traces : List Trace)
    (h : buildBlock s traces = Except.ok s2) :
    s2.rows = s.rows ++ traces
      ∧ (∀ id, id ∈ s2.bloom.inserted ↔ id ∈ s.bloom.inserted ∨ id ∈ traces.map (fun t => t.TraceID))
      ∧ s2.TotalObjects = s.TotalObjects + traces.length
      ∧ s2.isSealed = true := by
  induction traces generalizing s with
  | nil =>
    simp only [buildBlock, StreamingBlock.Complete] at h
    split at h
    · cases h
    · cases h
      simp
  | cons tr trs ih =>
    simp only [buildBlock, StreamingBlock.Add] at h
    split at h
    · cases h
    · rename_i s3 hadd
      split at hadd
      · cases hadd
      · split at hadd
        · cases hadd
        · cases hadd
          obtain ⟨h1, h2, h3, h4⟩ := ih _ h
          refine ⟨by simp [h1], ?_, by simp [h3]; omega, h4⟩
          intro id
          rw [h2]
          simp only [BloomIndex.insert, List.mem_cons, List.map_cons]
          tauto

theorem find?_of_nodup (traces : List Trace) (h : (traces.map (fun t => t.TraceID)).Nodup)
    (tr : Trace) (htr : tr ∈ traces) :
    traces.find? (fun t => decide (t.TraceID = tr.TraceID)) = some tr := by
  induction traces with
  | nil => simp at htr
  | cons a as ih =>
    simp only [List.map_cons, List.nodup_cons] at h
    rcases List.mem_cons.mp htr with rfl | hin
    · simp
    · have hne : a.TraceID ≠ tr.TraceID := by
        intro heq
        exact h.1 (heq ▸ List.mem_map_of_mem (fun t => t.TraceID) hin)
      rw [List.find?_cons_of_neg _ (by simpa using hne)]
      exact ih h.2 hin


/-- C8: for a block built by adding traces with distinct identifiers and
completing it, `FindTraceByID` returns for the identifier of every added
trace exactly the schema-mapped trace added under it, and "not found" for
every identifier that was never added, whatever the bloom index answers for
it. -/
theorem findTraceByID_returns_added {α : Type} (toProto : Trace → α)
    (falsePositive : String → Bool) (traces : List Trace) (b : StreamingBlock)
    (hdistinct : (traces.map (fun t => t.TraceID)).Nodup)
    (hbuild : buildBlock (newStreamingBlock falsePositive) traces = Except.ok b) :
    (∀ tr ∈ traces, FindTraceByID toProto b tr.TraceID = some (toProto tr)) ∧
      (∀ id, id ∉ traces.map (fun t => t.TraceID) → FindTraceByID toProto b id = none) := by
  obtain ⟨hrows, hbloom, _, _⟩ := buildBlock_ok _ _ _ hbuild
  simp only [newStreamingBlock, List.nil_append, List.not_mem_nil, false_or] at hrows hbloom
  refine ⟨?_, ?_⟩
  · intro tr htr
    have hin : tr.TraceID ∈ b.bloom.inserted :=
      (hbloom _).mpr (List.mem_map_of_mem (fun t => t.TraceID) htr)
    unfold FindTraceByID
    rw [if_neg (by simp [BloomIndex.test, hin]), hrows, find?_of_nodup traces hdistinct tr htr]
    rfl
  · intro id hid
    unfold FindTraceByID
    split
    · rfl
    · rw [hrows]
      have : traces.find? (fun tr => decide (tr.TraceID = id)) = none := by
        rw [List.find?_eq_none]
        intro tr htr hh
        apply hid
        have : tr.TraceID = id := by simpa using hh
        exact this ▸ List.mem_map_of_mem (fun t => t.TraceID) htr
      rw [this]
      rfl

/-- Witness of C8: the two traces of `TestBackendBlockFindTraceByID` under
sample identifiers; the wanted one is found, a third identifier is not. -/
theorem findTraceByID_returns_added_witness :
    FindTraceByID (fun t => t)
        (findTestBlock "0a" "0b" [otherTr "0a", wantFindTr "0b"]) (wantFindTr "0b").TraceID
      = some (wantFindTr "0b") ∧
    FindTraceByID (fun t => t)
        (findTestBlock "0a" "0b" [otherTr "0a", wantFindTr "0b"]) "0c" = none :=
  ⟨(findTraceByID_returns_added (fun t => t) (fun _ => true)
      [otherTr "0a", wantFindTr "0b"] (findTestBlock "0a" "0b" [otherTr "0a", wantFindTr "0b"])
      (by decide) rfl).1 (wantFindTr "0b") (by simp),
    (findTraceByID_returns_added (fun t => t) (fun _ => true)
      [otherTr "0a", wantFindTr "0b"] (findTestBlock "0a" "0b" [otherTr "0a", wantFindTr "0b"])
      (by decide) rfl).2 "0c" (by decide)⟩

end VParquet
